import Mathlib

/-!
# tagged_union.h

A shallow embedding of the macros of `src/tagged_union.h` and the proofs of the
properties stated about them.

The header consists of C preprocessor macros only, so the embedding models what
each macro expands to, under the C semantics of the expansion:

* an x-macro entry list is a list of `Entry` (label and payload type, the type
  being represented by its `sizeof`);
* `tagged_union(entries)` generates typedefs, an enumeration (numbered by the C
  rule: the first enumerator is 0, each further one is the previous plus one)
  and the members of a union;
* a value of a payload type is its object representation (a list of bytes);
  all members of a union start at offset 0 of the shared storage;
* a macro argument that is an expression is a computation over the program
  state (`Eval`), evaluated as many times as it occurs in the expansion;
* the `switch` built by `tu_resolve ... tu_resolved` is the flat sequence of
  labels, declarations, `break`s and user statements the macros expand to,
  run by the C rules for `switch` (jump to the matching `case`, else to
  `default`, else past the body; then run sequentially until a `break` or the
  end of the body).
-/

namespace TaggedUnionH

/-! ## Data model -/

/-- A byte of an object representation. -/
abbrev Byte := Fin 256

/-- The object representation of a value. -/
abbrev Bytes := List Byte

/-- One entry of the x-macro list, `entry(tag_label, type)`. The payload type is
represented by its size in bytes. -/
structure Entry where
  tag_label : String
  size : Nat
deriving DecidableEq, Repr

/-- The generated struct `{ enum tag_value; union untagged_union; }`. The union is
its shared storage: every member lives at offset 0 of `untagged_union`. -/
structure TaggedUnion where
  tag_value : Nat
  untagged_union : Bytes
deriving DecidableEq, Repr

/-- What `tagged_union(entries)` declares: the typedefs `tag_label_t`, the
enumeration constants with their values, and the union members with the name of
their type. -/
structure Generated where
  typedefs : List (String × Nat)
  tags : List (String × Nat)
  members : List (String × String)
deriving DecidableEq, Repr

/-- The ways an evaluation can fail to produce a value: `abort` is the process
termination of a failed `assert`; `undefined` is the use of a null or dangling
pointer; `ill_formed` is a program the compiler rejects (an identifier that is
not declared, an initializer of the wrong type). -/
inductive Fault where
  | abort
  | undefined
  | ill_formed
deriving DecidableEq, Repr

/-- The program state: the tagged-union objects, addressed by their position, and
the other variables of the program. -/
structure World where
  heap : List TaggedUnion
  locals : List Nat
deriving DecidableEq, Repr

/-- A C expression: it yields a value and may change the state. -/
abbrev Eval (α : Type) := World → Except Fault (α × World)

/-- A pointer to a tagged union: `none` is `NULL`. -/
abbrev Ptr := Option Nat

/-- A non-null pointer to the member `member` of the union of the object at
address `base`. -/
structure MemberPtr where
  base : Nat
  member : String
deriving DecidableEq, Repr

/-! ## The generator -/

/-- `#define __tu_create_typedefs(tag_label, ...) typedef __VA_ARGS__ tag_label##_t;` -/
def __tu_create_typedefs (e : Entry) : String × Nat :=
  (e.tag_label ++ "_t", e.size)

/-- `#define __tu_create_tags(tag_label, ...) tag_label,` -/
def __tu_create_tags (e : Entry) : String :=
  e.tag_label

/-- `#define __tu_create_union_members(tag_label, ...) tag_label##_t tag_label;` -/
def __tu_create_union_members (e : Entry) : String × String :=
  (e.tag_label, e.tag_label ++ "_t")

/-- The values C gives to the enumerators of `enum { a, b, c, }`: the first one is
`next`, every further one is the previous one plus one. -/
def enumerators (next : Nat) : List String → List (String × Nat)
  | [] => []
  | l :: ls => (l, next) :: enumerators (next + 1) ls

/-- The macro `tagged_union(entries)`:
`entries(__tu_create_typedefs,) typedef struct { enum { entries(__tu_create_tags,) } tag_value;
union { entries(__tu_create_union_members,) } untagged_union; } entries;` -/
def tagged_union (entries : List Entry) : Generated :=
  { typedefs := entries.map __tu_create_typedefs
    tags := enumerators 0 (entries.map __tu_create_tags)
    members := entries.map __tu_create_union_members }

/-- The value of the enumeration constant `tag_label`, when it is declared. -/
def tagValue (T : Generated) (tag_label : String) : Option Nat :=
  T.tags.lookup tag_label

/-- The size of the union member `tag_label`, when it is declared: the member has
type `tag_label_t`, which the typedef resolves. -/
def memberSize (T : Generated) (tag_label : String) : Option Nat :=
  match T.members.lookup tag_label with
  | some ty => T.typedefs.lookup ty
  | none => none

/-- The size of the union: that of its largest member. -/
def unionSize (T : Generated) : Nat :=
  (T.members.map (fun m => (T.typedefs.lookup m.2).getD 0)).foldr max 0

/-! ## Storage -/

/-- Store the object representation `v` at offset 0 of `storage`. -/
def storeBytes (v : Bytes) (storage : Bytes) : Bytes :=
  v ++ storage.drop v.length

/-- The expression `(u).untagged_union.tag_label`. -/
def readMember (T : Generated) (tag_label : String) (u : TaggedUnion) : Except Fault Bytes :=
  match memberSize T tag_label with
  | some n => .ok (u.untagged_union.take n)
  | none => .error .ill_formed

/-- The object a pointer points to. -/
def deref (w : World) (p : Ptr) : Except Fault TaggedUnion :=
  match p with
  | none => .error .undefined
  | some a =>
    match w.heap[a]? with
    | some u => .ok u
    | none => .error .undefined

/-- The expression `&(p)->untagged_union.tag_label` for a pointer value `p`. -/
def addressOfMember (T : Generated) (w : World) (p : Ptr) (tag_label : String) :
    Except Fault MemberPtr :=
  match memberSize T tag_label, p with
  | none, _ => .error .ill_formed
  | some _, none => .error .undefined
  | some _, some a => if a < w.heap.length then .ok ⟨a, tag_label⟩ else .error .undefined

/-- The expression `*h` for a member pointer `h`. -/
def loadMember (T : Generated) (w : World) (h : MemberPtr) : Except Fault Bytes :=
  match deref w (some h.base) with
  | .ok u => readMember T h.member u
  | .error f => .error f

/-- The assignment `*h = v` for a member pointer `h`: the discriminant of the
object is not touched. -/
def storeMember (T : Generated) (w : World) (h : MemberPtr) (v : Bytes) : Except Fault World :=
  match memberSize T h.member, w.heap[h.base]? with
  | none, _ => .error .ill_formed
  | some _, none => .error .undefined
  | some n, some u =>
    if v.length = n then
      .ok { w with heap := w.heap.set h.base { u with untagged_union := storeBytes v u.untagged_union } }
    else .error .ill_formed

/-! ## Construct, query, extract -/

/-- The macro `tu_new(tag_label, ...)`:
`{ .tag_value = tag_label, .untagged_union.tag_label = __VA_ARGS__ }`. The bytes of
the union that the member does not cover are zero. -/
def tu_new (T : Generated) (tag_label : String) (v : Bytes) : Except Fault TaggedUnion :=
  match tagValue T tag_label, memberSize T tag_label with
  | some t, some n =>
    if v.length = n then
      .ok { tag_value := t, untagged_union := storeBytes v (List.replicate (unionSize T) 0) }
    else .error .ill_formed
  | _, _ => .error .ill_formed

/-- The macro `tu_check(tagged_union, tag)`: `((tagged_union).tag_value == (tag))`. -/
def tu_check (tagged_union : Eval TaggedUnion) (tag : Nat) : Eval Bool := fun w =>
  match tagged_union w with
  | .ok (u, w1) => .ok (u.tag_value == tag, w1)
  | .error f => .error f

/-- The macro `tu_check_ptr(tagged_union_ptr, tag)`:
`((tagged_union_ptr)->tag_value == (tag))`. -/
def tu_check_ptr (tagged_union_ptr : Eval Ptr) (tag : Nat) : Eval Bool := fun w =>
  match tagged_union_ptr w with
  | .ok (p, w1) =>
    match deref w1 p with
    | .ok u => .ok (u.tag_value == tag, w1)
    | .error f => .error f
  | .error f => .error f

/-- The macro `assert` of the C library header `assert.h`, which the repository uses
and does not define: when `NDEBUG` is defined it expands to `((void)0)` and its
argument is not evaluated; otherwise it evaluates the argument and terminates the
process when it is false. -/
def c_assert (NDEBUG : Bool) (e : Eval Bool) : Eval Unit := fun w =>
  if NDEBUG then .ok ((), w)
  else
    match e w with
    | .ok (true, w1) => .ok ((), w1)
    | .ok (false, _) => .error .abort
    | .error f => .error f

/-- The macro `tu_cast(tag_label, tagged_union)`:
`(assert(tu_check((tagged_union), tag_label)), (tagged_union).untagged_union.tag_label)`. -/
def tu_cast (NDEBUG : Bool) (T : Generated) (tag_label : String)
    (tagged_union : Eval TaggedUnion) : Eval Bytes := fun w =>
  match tagValue T tag_label with
  | none => .error .ill_formed
  | some tag =>
    match c_assert NDEBUG (tu_check tagged_union tag) w with
    | .error f => .error f
    | .ok (_, w1) =>
      match tagged_union w1 with
      | .error f => .error f
      | .ok (u, w2) =>
        match readMember T tag_label u with
        | .ok v => .ok (v, w2)
        | .error f => .error f

/-- The macro `tu_cast_ptr(tag_label, tagged_union_ptr)`:
`(tu_check_ptr((tagged_union_ptr), tag_label)? &(tagged_union_ptr)->untagged_union.tag_label : NULL)`. -/
def tu_cast_ptr (T : Generated) (tag_label : String) (tagged_union_ptr : Eval Ptr) :
    Eval (Option MemberPtr) := fun w =>
  match tagValue T tag_label with
  | none => .error .ill_formed
  | some tag =>
    match tu_check_ptr tagged_union_ptr tag w with
    | .error f => .error f
    | .ok (false, w1) => .ok (none, w1)
    | .ok (true, w1) =>
      match tagged_union_ptr w1 with
      | .error f => .error f
      | .ok (p, w2) =>
        match addressOfMember T w2 p tag_label with
        | .ok h => .ok (some h, w2)
        | .error f => .error f

/-- The expression that names the object at address `a`. -/
def obj (a : Nat) : Eval TaggedUnion := fun w =>
  match deref w (some a) with
  | .ok u => .ok (u, w)
  | .error f => .error f

/-- The expression `&x` for the object `x` at address `a`. -/
def addrOf (a : Nat) : Eval Ptr := fun w => .ok (some a, w)

/-! ## The dispatch construct -/

/-- User-written statements inside the dispatch construct. They see the handle that
is in scope, if there is one, and run to completion. -/
abbrev Code := Option MemberPtr → World → World

/-- A branch as written at a dispatch site: `tu_matches(tag_label, h) body` or
`tu_no_match body`. -/
inductive Branch where
  | tu_matches (tag_label : String) (body : Code)
  | tu_no_match (body : Code)

/-- A dispatch site: what is written between `tu_resolve(...)` and `tu_resolved`. -/
structure Site where
  before : Code
  branches : List Branch

/-- The places where user code stands: before the first branch, or in the body of
the branch written at position `i`. -/
inductive Region where
  | before
  | branch (i : Nat)
deriving DecidableEq, Repr

/-- The record of one execution of user code: where it stands and the handle it
was given. -/
structure Event where
  region : Region
  handle : Option MemberPtr
deriving DecidableEq, Repr

/-- The pieces of the body of the `switch` the macros expand to. -/
inductive Item where
  | openBlock
  | closeBlock
  | brk
  | caseLabel (tag_label : String)
  | defaultLabel
  | declHandle (tag_label : String)
  | user (region : Region) (code : Code)

/-- The macro `tu_matches(tag_label, member_ptr_name)`:
`break; } case tag_label: { tag_label##_t* const member_ptr_name = &__tu->untagged_union.tag_label;` -/
def tu_matches (tag_label : String) : List Item :=
  [.brk, .closeBlock, .caseLabel tag_label, .openBlock, .declHandle tag_label]

/-- The macro `tu_no_match`: `break; } default: {` -/
def tu_no_match : List Item :=
  [.brk, .closeBlock, .defaultLabel, .openBlock]

/-- The macro `tu_resolved`: `} } }`. The first brace closes the block of the last
branch; the other two close the `switch` and the block `tu_resolve` opened. -/
def tu_resolved : List Item :=
  [.closeBlock]

/-- The expansion of the branches, in the order they are written; the branch at
position `i` carries the region `branch i`. -/
def expandBranches (i : Nat) : List Branch → List Item
  | [] => []
  | .tu_matches tag_label body :: bs =>
    tu_matches tag_label ++ .user (.branch i) body :: expandBranches (i + 1) bs
  | .tu_no_match body :: bs =>
    tu_no_match ++ .user (.branch i) body :: expandBranches (i + 1) bs

/-- The body of the `switch`: the block `tu_resolve` leaves open, the statements
written before the first branch, the branches, and `tu_resolved`. -/
def switchBody (site : Site) : List Item :=
  .openBlock :: .user .before site.before :: (expandBranches 0 site.branches ++ tu_resolved)

/-- The labels of the `case`s of a site, in the order they are written. -/
def caseLabels : List Branch → List String
  | [] => []
  | .tu_matches tag_label _ :: bs => tag_label :: caseLabels bs
  | .tu_no_match _ :: bs => caseLabels bs

/-- The number of `default` labels of a site. -/
def defaultCount : List Branch → Nat
  | [] => 0
  | .tu_matches _ _ :: bs => defaultCount bs
  | .tu_no_match _ :: bs => defaultCount bs + 1

/-- What the compiler requires of the `switch`: every `case` label is a declared
enumeration constant and a declared member, no two `case`s have the same value, and
there is at most one `default`. -/
def compiles (T : Generated) (site : Site) : Bool :=
  (caseLabels site.branches).all (fun l => (tagValue T l).isSome && (memberSize T l).isSome)
    && decide ((caseLabels site.branches).map (tagValue T)).Nodup
    && decide (defaultCount site.branches ≤ 1)

/-- The statements after the `case` label whose constant equals `tag`. -/
def findCase (T : Generated) (tag : Nat) : List Item → Option (List Item)
  | [] => none
  | .caseLabel tag_label :: rest =>
    if tagValue T tag_label = some tag then some rest else findCase T tag rest
  | _ :: rest => findCase T tag rest

/-- The statements after the `default` label. -/
def findDefault : List Item → Option (List Item)
  | [] => none
  | .defaultLabel :: rest => some rest
  | _ :: rest => findDefault rest

/-- Sequential execution inside the body of the `switch`, with `__tu` the pointer
captured at entry and `h` the handle in scope: labels and braces do nothing (a
closing brace ends the scope of the handle), a `break` or the end of the body leaves
the `switch`, the declaration of a handle binds `&__tu->untagged_union.tag_label`, and
user code runs and is recorded. -/
def run (T : Generated) (__tu : Ptr) :
    List Item → Option MemberPtr → World → Except Fault (List Event × World)
  | [], _, w => .ok ([], w)
  | .brk :: _, _, w => .ok ([], w)
  | .openBlock :: rest, h, w => run T __tu rest h w
  | .closeBlock :: rest, _, w => run T __tu rest none w
  | .caseLabel _ :: rest, h, w => run T __tu rest h w
  | .defaultLabel :: rest, h, w => run T __tu rest h w
  | .declHandle tag_label :: rest, _, w =>
    match addressOfMember T w __tu tag_label with
    | .ok m => run T __tu rest (some m) w
    | .error f => .error f
  | .user region code :: rest, h, w =>
    match run T __tu rest h (code h w) with
    | .ok (events, w1) => .ok (⟨region, h⟩ :: events, w1)
    | .error f => .error f

/-- The statement `switch (tag) { items }`: control jumps to the matching `case`,
else to `default`, else past the body. -/
def execSwitch (T : Generated) (__tu : Ptr) (tag : Nat) (items : List Item) (w : World) :
    Except Fault (List Event × World) :=
  match findCase T tag items with
  | some rest => run T __tu rest none w
  | none =>
    match findDefault items with
    | some rest => run T __tu rest none w
    | none => .ok ([], w)

/-- The macro `tu_resolve(tagged_union_type, tagged_union_ptr)`, with what is written up
to `tu_resolved`:
`{ tagged_union_type* const __tu = (tagged_union_ptr); switch ((tagged_union_ptr)->tag_value) { {`.
The result is the record of the user code that ran, in order, and the final state. -/
def tu_resolve (T : Generated) (tagged_union_ptr : Eval Ptr) (site : Site) (w : World) :
    Except Fault (List Event × World) :=
  if compiles T site then
    match tagged_union_ptr w with
    | .error f => .error f
    | .ok (__tu, w1) =>
      match tagged_union_ptr w1 with
      | .error f => .error f
      | .ok (p, w2) =>
        match deref w2 p with
        | .error f => .error f
        | .ok u => execSwitch T __tu u.tag_value (switchBody site) w2
  else .error .ill_formed

/-! ## Vocabulary of the statements -/

/-- The labels an entry list declares, in order. -/
def labels (entries : List Entry) : List String :=
  entries.map Entry.tag_label

/-- The definition-time contract of the generator: no label is declared twice. -/
def UniqueLabels (entries : List Entry) : Prop :=
  (labels entries).Nodup

instance (entries : List Entry) : Decidable (UniqueLabels entries) :=
  inferInstanceAs (Decidable (labels entries).Nodup)

/-- The entry list of the example scenario: `Circle` carries a `float` (4 bytes),
`Rectangle` a struct of two `float`s (8 bytes). -/
def shape : List Entry :=
  [⟨"Circle", 4⟩, ⟨"Rectangle", 8⟩]

/-- The bodies of the branches of a site, in the order they are written. -/
def bodies : List Branch → List Code
  | [] => []
  | .tu_matches _ body :: bs => body :: bodies bs
  | .tu_no_match body :: bs => body :: bodies bs

/-- A state with a circle at address 0 and a rectangle at address 1. -/
def twoShapes : World :=
  { heap := [⟨0, [1, 2, 3, 4, 0, 0, 0, 0]⟩, ⟨1, [5, 6, 7, 8, 9, 10, 11, 12]⟩]
    locals := [] }

/-- User code that leaves a mark in the variables of the program. -/
def mark (n : Nat) : Code :=
  fun _ w => { w with locals := n :: w.locals }

/-- A dispatch site with a branch for `Circle`, one for `Rectangle` and a default
branch, each leaving its own mark. -/
def fullSite : Site :=
  { before := mark 0
    branches := [.tu_matches "Circle" (mark 1), .tu_matches "Rectangle" (mark 2),
      .tu_no_match (mark 3)] }

/-- A dispatch site that knows `Circle` only, with a default branch. -/
def circleSite : Site :=
  { before := mark 0
    branches := [.tu_matches "Circle" (mark 1), .tu_no_match (mark 3)] }

/-- The expression `shapes + i++`, where `shapes` is the array of all the objects and
`i` the first variable of the program: it yields the address `i` and increments `i`. -/
def nextShape : Eval Ptr := fun w =>
  match w.locals with
  | i :: rest => .ok (some i, { w with locals := (i + 1) :: rest })
  | [] => .error .undefined

/-- The state `twoShapes` with the variable `i` set to 0. -/
def countedShapes : World :=
  { twoShapes with locals := [0] }

/-- The user statement `*h = v;` on the handle in scope. -/
def assign (T : Generated) (v : Bytes) : Code := fun h w =>
  match h with
  | some m =>
    match storeMember T w m v with
    | .ok w1 => w1
    | .error _ => w
  | none => w

/-- A dispatch site whose `Circle` branch overwrites the circle through its handle. -/
def writeSite : Site :=
  { before := mark 0
    branches := [.tu_matches "Circle" (assign (tagged_union shape) [9, 9, 9, 9]),
      .tu_no_match (mark 3)] }

/-- The site `fullSite` with its branches written in another order. -/
def permutedSite : Site :=
  { before := mark 0
    branches := [.tu_no_match (mark 3), .tu_matches "Rectangle" (mark 2),
      .tu_matches "Circle" (mark 1)] }

/-- A dispatch site that knows `Circle` only and has no default branch. -/
def bareSite : Site :=
  { before := mark 0
    branches := [.tu_matches "Circle" (mark 1)] }

/-! ## The generator: lemmas -/

theorem enumerators_lookup (ls : List String) (n : Nat) (L : String) :
    (enumerators n ls).lookup L = if L ∈ ls then some (n + ls.indexOf L) else none := by
  induction ls generalizing n with
  | nil => simp [enumerators]
  | cons l ls ih =>
    simp only [enumerators, List.lookup_cons, List.indexOf_cons, List.mem_cons]
    by_cases h : L = l
    · subst h; simp
    · have h1 : (L == l) = false := by simpa using h
      have h2 : (l == L) = false := by simpa using (Ne.symm h)
      simp only [h1, h2, ih, h, false_or, cond_false]
      split
      · simp; omega
      · rfl

theorem enumerators_fst (ls : List String) (n : Nat) :
    (enumerators n ls).map Prod.fst = ls := by
  induction ls generalizing n with
  | nil => rfl
  | cons l ls ih => simp [enumerators, ih]

theorem enumerators_snd (ls : List String) (n : Nat) :
    (enumerators n ls).map Prod.snd = List.range' n ls.length := by
  induction ls generalizing n with
  | nil => rfl
  | cons l ls ih => simp [enumerators, ih, List.range'_succ]

theorem tagValue_eq (entries : List Entry) (L : String) :
    tagValue (tagged_union entries) L =
      if L ∈ labels entries then some ((labels entries).indexOf L) else none := by
  simp only [tagValue, tagged_union, enumerators_lookup, labels]
  have : List.map __tu_create_tags entries = List.map Entry.tag_label entries := rfl
  simp [this]

theorem tagValue_inj (entries : List Entry) (L M : String) (t : Nat)
    (hL : tagValue (tagged_union entries) L = some t)
    (hM : tagValue (tagged_union entries) M = some t) : L = M := by
  rw [tagValue_eq] at hL hM
  split at hL <;> split at hM <;> simp at hL hM
  rename_i h1 h2
  have l1 := List.indexOf_lt_length.mpr h1
  have l2 := List.indexOf_lt_length.mpr h2
  have e1 := List.getElem_indexOf l1
  have e2 := List.getElem_indexOf l2
  have : (labels entries)[List.indexOf L (labels entries)] = (labels entries)[List.indexOf M (labels entries)] := by
    congr 1; omega
  rw [e1, e2] at this
  exact this

theorem string_append_cancel (s t x : String) (h : s ++ x = t ++ x) : s = t := by
  apply String.ext
  have := congrArg String.data h
  simp only [String.data_append] at this
  exact List.append_cancel_right this

theorem members_lookup (entries : List Entry) (L : String) :
    (entries.map __tu_create_union_members).lookup L =
      if L ∈ labels entries then some (L ++ "_t") else none := by
  induction entries with
  | nil => simp [labels]
  | cons x xs ih =>
    simp only [List.map_cons, __tu_create_union_members, List.lookup_cons, labels, List.mem_cons]
    by_cases h : L = x.tag_label
    · subst h; simp
    · have h1 : (L == x.tag_label) = false := by simpa using h
      simp only [h1, h, false_or]
      exact ih

theorem typedefs_lookup (entries : List Entry) (e : Entry)
    (hu : UniqueLabels entries) (he : e ∈ entries) :
    (entries.map __tu_create_typedefs).lookup (e.tag_label ++ "_t") = some e.size := by
  induction entries with
  | nil => simp at he
  | cons x xs ih =>
    simp only [List.map_cons, __tu_create_typedefs, List.lookup_cons]
    simp only [UniqueLabels, labels, List.map_cons, List.nodup_cons] at hu
    by_cases h : e.tag_label = x.tag_label
    · have hex : e = x := by
        rcases List.mem_cons.mp he with h0 | h0
        · exact h0
        · exact absurd (List.mem_map_of_mem Entry.tag_label h0) (h ▸ hu.1)
      subst hex; simp
    · have h1 : (e.tag_label ++ "_t" == x.tag_label ++ "_t") = false := by
        simp only [beq_eq_false_iff_ne, ne_eq]
        exact fun hc => h (string_append_cancel _ _ _ hc)
      simp only [h1]
      rcases List.mem_cons.mp he with h0 | h0
      · exact absurd (congrArg Entry.tag_label h0) h
      · exact ih hu.2 h0

theorem memberSize_of_mem (entries : List Entry) (e : Entry)
    (hu : UniqueLabels entries) (he : e ∈ entries) :
    memberSize (tagged_union entries) e.tag_label = some e.size := by
  have hm : e.tag_label ∈ labels entries := List.mem_map_of_mem Entry.tag_label he
  simp only [memberSize, tagged_union, members_lookup, hm, if_true]
  exact typedefs_lookup entries e hu he

theorem tagValue_of_mem (entries : List Entry) (e : Entry) (he : e ∈ entries) :
    tagValue (tagged_union entries) e.tag_label = some ((labels entries).indexOf e.tag_label) := by
  have hm : e.tag_label ∈ labels entries := List.mem_map_of_mem Entry.tag_label he
  simp [tagValue_eq, hm]

/-! ## Construct, query, extract: lemmas -/

theorem take_storeBytes (v storage : Bytes) (n : Nat) (h : v.length = n) :
    (storeBytes v storage).take n = v := by
  simp [storeBytes, List.take_left' h]

theorem tu_new_ok (entries : List Entry) (e : Entry) (v : Bytes)
    (hu : UniqueLabels entries) (he : e ∈ entries) (hv : v.length = e.size) :
    tu_new (tagged_union entries) e.tag_label v =
      .ok { tag_value := (labels entries).indexOf e.tag_label,
            untagged_union := storeBytes v (List.replicate (unionSize (tagged_union entries)) 0) } := by
  simp [tu_new, tagValue_of_mem entries e he, memberSize_of_mem entries e hu he, hv]

theorem readMember_of_mem (entries : List Entry) (e : Entry) (u : TaggedUnion)
    (hu : UniqueLabels entries) (he : e ∈ entries) :
    readMember (tagged_union entries) e.tag_label u = .ok (u.untagged_union.take e.size) := by
  simp [readMember, memberSize_of_mem entries e hu he]

theorem tu_check_pure (x : Eval TaggedUnion) (u : TaggedUnion) (t : Nat) (w : World)
    (hx : x w = .ok (u, w)) : tu_check x t w = .ok (u.tag_value == t, w) := by
  simp [tu_check, hx]

theorem tu_check_ptr_pure (p : Eval Ptr) (a : Nat) (u : TaggedUnion) (t : Nat) (w : World)
    (hp : p w = .ok (some a, w)) (ha : w.heap[a]? = some u) :
    tu_check_ptr p t w = .ok (u.tag_value == t, w) := by
  simp [tu_check_ptr, hp, deref, ha]

theorem tagValue_ne_of_label_ne (entries : List Entry) (e m : Entry)
    (he : e ∈ entries) (hm : m ∈ entries) (hne : m.tag_label ≠ e.tag_label) :
    (labels entries).indexOf e.tag_label ≠ (labels entries).indexOf m.tag_label := by
  intro hc
  apply hne
  apply tagValue_inj entries m.tag_label e.tag_label ((labels entries).indexOf e.tag_label)
  · rw [tagValue_of_mem entries m hm, hc]
  · exact tagValue_of_mem entries e he

/-- C1. Round trip: for a declared label and a value of its declared type, `tu_new`
produces an instance whose discriminant is the label and whose payload is the value,
and `tu_cast` with the same label on that instance returns normally with that value,
whether or not assertions are compiled in. -/
theorem round_trip (NDEBUG : Bool) (entries : List Entry) (e : Entry) (v : Bytes)
    (hu : UniqueLabels entries) (he : e ∈ entries) (hv : v.length = e.size) :
    ∃ u, tu_new (tagged_union entries) e.tag_label v = .ok u ∧
      tagValue (tagged_union entries) e.tag_label = some u.tag_value ∧
      readMember (tagged_union entries) e.tag_label u = .ok v ∧
      ∀ (x : Eval TaggedUnion) (w : World), x w = .ok (u, w) →
        tu_cast NDEBUG (tagged_union entries) e.tag_label x w = .ok (v, w) := by
  refine ⟨_, tu_new_ok entries e v hu he hv, tagValue_of_mem entries e he, ?_, ?_⟩
  · rw [readMember_of_mem entries e _ hu he]
    simp [take_storeBytes _ _ _ hv]
  · intro x w hx
    have hr := readMember_of_mem entries e
      { tag_value := (labels entries).indexOf e.tag_label,
        untagged_union := storeBytes v (List.replicate (unionSize (tagged_union entries)) 0) } hu he
    simp only [take_storeBytes _ _ _ hv] at hr
    cases NDEBUG <;>
      simp [tu_cast, tagValue_of_mem entries e he, c_assert, tu_check_pure x _ _ w hx, hx, hr]

/-- A circle of the example scenario makes the round trip. -/
theorem round_trip_witness :
    UniqueLabels shape ∧ (⟨"Circle", 4⟩ : Entry) ∈ shape ∧ ([1, 2, 3, 4] : Bytes).length = 4 ∧
    ∃ u, tu_new (tagged_union shape) "Circle" [1, 2, 3, 4] = .ok u ∧
      tagValue (tagged_union shape) "Circle" = some u.tag_value ∧
      readMember (tagged_union shape) "Circle" u = .ok [1, 2, 3, 4] ∧
      ∀ (x : Eval TaggedUnion) (w : World), x w = .ok (u, w) →
        tu_cast false (tagged_union shape) "Circle" x w = .ok ([1, 2, 3, 4], w) :=
  ⟨by decide, by decide, rfl,
    round_trip false shape ⟨"Circle", 4⟩ [1, 2, 3, 4] (by decide) (by decide) rfl⟩

/-- C2. Discriminant fidelity: for a definition with unique labels, `tu_check` on the
instance `tu_new` builds for a declared label is true for that label's constant and
false for the constant of every other declared label; and for every instance and every
tag value `tu_check` returns, without changing the state, true exactly when the
instance's `tag_value` equals the tag. -/
theorem discriminant_fidelity (entries : List Entry) (e m : Entry) (v : Bytes)
    (hu : UniqueLabels entries) (he : e ∈ entries) (hm : m ∈ entries)
    (hv : v.length = e.size) :
    ∃ u tL tM, tu_new (tagged_union entries) e.tag_label v = .ok u ∧
      tagValue (tagged_union entries) e.tag_label = some tL ∧
      tagValue (tagged_union entries) m.tag_label = some tM ∧
      (∀ (x : Eval TaggedUnion) (w : World), x w = .ok (u, w) →
        tu_check x tL w = .ok (true, w) ∧
        (m.tag_label ≠ e.tag_label → tu_check x tM w = .ok (false, w))) ∧
      (∀ (u1 : TaggedUnion) (t : Nat) (x : Eval TaggedUnion) (w : World), x w = .ok (u1, w) →
        ∃ b, tu_check x t w = .ok (b, w) ∧ (b = true ↔ u1.tag_value = t)) := by
  refine ⟨_, _, _, tu_new_ok entries e v hu he hv, tagValue_of_mem entries e he,
    tagValue_of_mem entries m hm, ?_, ?_⟩
  · intro x w hx
    refine ⟨?_, ?_⟩
    · simp [tu_check_pure x _ _ w hx]
    · intro hne
      rw [tu_check_pure x _ _ w hx]
      have := tagValue_ne_of_label_ne entries e m he hm hne
      simp [this]
  · intro u1 t x w hx
    exact ⟨u1.tag_value == t, tu_check_pure x u1 t w hx, by simp⟩

/-- A circle of the example scenario, checked against `Circle` and `Rectangle`. -/
theorem discriminant_fidelity_witness :
    UniqueLabels shape ∧ (⟨"Circle", 4⟩ : Entry) ∈ shape ∧ (⟨"Rectangle", 8⟩ : Entry) ∈ shape ∧
    ([1, 2, 3, 4] : Bytes).length = 4 ∧
    ∃ u tL tM, tu_new (tagged_union shape) "Circle" [1, 2, 3, 4] = .ok u ∧
      tagValue (tagged_union shape) "Circle" = some tL ∧
      tagValue (tagged_union shape) "Rectangle" = some tM ∧
      (∀ (x : Eval TaggedUnion) (w : World), x w = .ok (u, w) →
        tu_check x tL w = .ok (true, w) ∧
        ("Rectangle" ≠ "Circle" → tu_check x tM w = .ok (false, w))) ∧
      (∀ (u1 : TaggedUnion) (t : Nat) (x : Eval TaggedUnion) (w : World), x w = .ok (u1, w) →
        ∃ b, tu_check x t w = .ok (b, w) ∧ (b = true ↔ u1.tag_value = t)) :=
  ⟨by decide, by decide, by decide, rfl,
    discriminant_fidelity shape ⟨"Circle", 4⟩ ⟨"Rectangle", 8⟩ [1, 2, 3, 4]
      (by decide) (by decide) (by decide) rfl⟩

/-- C3, as stated, fails: in a build that defines `NDEBUG` the assertion is compiled
out, and `tu_cast(Circle, r)` on the rectangle `r = tu_new(Rectangle, ...)` returns
the first four bytes of the rectangle instead of terminating the process. -/
theorem mismatch_returns_when_assert_disabled :
    tu_new (tagged_union shape) "Rectangle" [1, 2, 3, 4, 5, 6, 7, 8]
        = .ok ⟨1, [1, 2, 3, 4, 5, 6, 7, 8]⟩ ∧
      tu_cast true (tagged_union shape) "Circle" (obj 0) ⟨[⟨1, [1, 2, 3, 4, 5, 6, 7, 8]⟩], []⟩
        = .ok ([1, 2, 3, 4], ⟨[⟨1, [1, 2, 3, 4, 5, 6, 7, 8]⟩], []⟩) ∧
      tu_cast true (tagged_union shape) "Circle" (obj 0) ⟨[⟨1, [1, 2, 3, 4, 5, 6, 7, 8]⟩], []⟩
        ≠ .error .abort := by
  refine ⟨rfl, rfl, ?_⟩
  intro h
  have h2 : tu_cast true (tagged_union shape) "Circle" (obj 0)
      ⟨[⟨1, [1, 2, 3, 4, 5, 6, 7, 8]⟩], []⟩
        = .ok ([1, 2, 3, 4], ⟨[⟨1, [1, 2, 3, 4, 5, 6, 7, 8]⟩], []⟩) := rfl
  rw [h2] at h
  cases h

/-- C3, amended: when assertions are compiled in (`NDEBUG` not defined), `tu_cast` with
a declared label on the instance `tu_new` builds for a different declared label
terminates the process through the failed assertion and returns no value; when
`NDEBUG` is defined the same call returns the storage of the union read as the
member of the requested label. -/
theorem mismatch_is_fatal (entries : List Entry) (e m : Entry) (v : Bytes)
    (hu : UniqueLabels entries) (he : e ∈ entries) (hm : m ∈ entries)
    (hv : v.length = e.size) (hne : m.tag_label ≠ e.tag_label) :
    ∃ u, tu_new (tagged_union entries) e.tag_label v = .ok u ∧
      ∀ (x : Eval TaggedUnion) (w : World), x w = .ok (u, w) →
        tu_cast false (tagged_union entries) m.tag_label x w = .error .abort ∧
        tu_cast true (tagged_union entries) m.tag_label x w
          = .ok (u.untagged_union.take m.size, w) := by
  refine ⟨_, tu_new_ok entries e v hu he hv, ?_⟩
  intro x w hx
  have hne2 : ((labels entries).indexOf e.tag_label == (labels entries).indexOf m.tag_label)
      = false := by
    simpa using tagValue_ne_of_label_ne entries e m he hm hne
  refine ⟨?_, ?_⟩
  · simp [tu_cast, tagValue_of_mem entries m hm, c_assert, tu_check_pure x _ _ w hx, hne2]
  · simp [tu_cast, tagValue_of_mem entries m hm, c_assert, hx,
      readMember_of_mem entries m _ hu hm]

/-- A circle of the example scenario, extracted as a rectangle. -/
theorem mismatch_is_fatal_witness :
    UniqueLabels shape ∧ (⟨"Circle", 4⟩ : Entry) ∈ shape ∧ (⟨"Rectangle", 8⟩ : Entry) ∈ shape ∧
    ([1, 2, 3, 4] : Bytes).length = 4 ∧ "Rectangle" ≠ "Circle" ∧
    ∃ u, tu_new (tagged_union shape) "Circle" [1, 2, 3, 4] = .ok u ∧
      ∀ (x : Eval TaggedUnion) (w : World), x w = .ok (u, w) →
        tu_cast false (tagged_union shape) "Rectangle" x w = .error .abort ∧
        tu_cast true (tagged_union shape) "Rectangle" x w
          = .ok (u.untagged_union.take 8, w) :=
  ⟨by decide, by decide, by decide, rfl, by decide,
    mismatch_is_fatal shape ⟨"Circle", 4⟩ ⟨"Rectangle", 8⟩ [1, 2, 3, 4]
      (by decide) (by decide) (by decide) rfl (by decide)⟩

/-- C4. Non-fatal mismatch: `tu_cast_ptr` with a declared label on a pointer to the
instance `tu_new` builds for a different declared label returns `NULL`, does not
abort and leaves the state as it was. -/
theorem non_fatal_mismatch (entries : List Entry) (e m : Entry) (v : Bytes)
    (hu : UniqueLabels entries) (he : e ∈ entries) (hm : m ∈ entries)
    (hv : v.length = e.size) (hne : m.tag_label ≠ e.tag_label) :
    ∃ u, tu_new (tagged_union entries) e.tag_label v = .ok u ∧
      ∀ (p : Eval Ptr) (a : Nat) (w : World), p w = .ok (some a, w) → w.heap[a]? = some u →
        tu_cast_ptr (tagged_union entries) m.tag_label p w = .ok (none, w) := by
  refine ⟨_, tu_new_ok entries e v hu he hv, ?_⟩
  intro p a w hp ha
  have hne2 : ((labels entries).indexOf e.tag_label == (labels entries).indexOf m.tag_label)
      = false := by
    simpa using tagValue_ne_of_label_ne entries e m he hm hne
  simp [tu_cast_ptr, tagValue_of_mem entries m hm, tu_check_ptr_pure p a _ _ w hp ha, hne2]

/-- A pointer to a circle of the example scenario, extracted as a rectangle. -/
theorem non_fatal_mismatch_witness :
    UniqueLabels shape ∧ (⟨"Circle", 4⟩ : Entry) ∈ shape ∧ (⟨"Rectangle", 8⟩ : Entry) ∈ shape ∧
    ([1, 2, 3, 4] : Bytes).length = 4 ∧ "Rectangle" ≠ "Circle" ∧
    ∃ u, tu_new (tagged_union shape) "Circle" [1, 2, 3, 4] = .ok u ∧
      ∀ (p : Eval Ptr) (a : Nat) (w : World), p w = .ok (some a, w) → w.heap[a]? = some u →
        tu_cast_ptr (tagged_union shape) "Rectangle" p w = .ok (none, w) :=
  ⟨by decide, by decide, by decide, rfl, by decide,
    non_fatal_mismatch shape ⟨"Circle", 4⟩ ⟨"Rectangle", 8⟩ [1, 2, 3, 4]
      (by decide) (by decide) (by decide) rfl (by decide)⟩

theorem lt_length_of_getElem? (heap : List TaggedUnion) (a : Nat) (u : TaggedUnion)
    (ha : heap[a]? = some u) : a < heap.length := by
  rcases List.getElem?_eq_some.mp ha with ⟨h, _⟩
  exact h

theorem addressOfMember_ok (entries : List Entry) (e : Entry) (w : World) (a : Nat)
    (u : TaggedUnion) (hu : UniqueLabels entries) (he : e ∈ entries)
    (ha : w.heap[a]? = some u) :
    addressOfMember (tagged_union entries) w (some a) e.tag_label = .ok ⟨a, e.tag_label⟩ := by
  simp [addressOfMember, memberSize_of_mem entries e hu he, lt_length_of_getElem? _ _ _ ha]

theorem loadMember_ok (entries : List Entry) (e : Entry) (w : World) (a : Nat)
    (u : TaggedUnion) (hu : UniqueLabels entries) (he : e ∈ entries)
    (ha : w.heap[a]? = some u) :
    loadMember (tagged_union entries) w ⟨a, e.tag_label⟩ = .ok (u.untagged_union.take e.size) := by
  simp [loadMember, deref, ha, readMember_of_mem entries e u hu he]

theorem tu_cast_ptr_pure (entries : List Entry) (e : Entry) (u : TaggedUnion) (p : Eval Ptr)
    (a : Nat) (w : World) (hu : UniqueLabels entries) (he : e ∈ entries)
    (hp : p w = .ok (some a, w)) (ha : w.heap[a]? = some u) :
    tu_cast_ptr (tagged_union entries) e.tag_label p w =
      .ok (if u.tag_value = (labels entries).indexOf e.tag_label
            then some ⟨a, e.tag_label⟩ else none, w) := by
  by_cases h : u.tag_value = (labels entries).indexOf e.tag_label
  · have hb : (u.tag_value == (labels entries).indexOf e.tag_label) = true := by simpa using h
    simp [tu_cast_ptr, tagValue_of_mem entries e he, tu_check_ptr_pure p a u _ w hp ha, hb, hp,
      addressOfMember_ok entries e w a u hu he ha, h]
  · have hb : (u.tag_value == (labels entries).indexOf e.tag_label) = false := by simpa using h
    simp [tu_cast_ptr, tagValue_of_mem entries e he, tu_check_ptr_pure p a u _ w hp ha, hb, h]

/-- C5. Extract by reference: for every instance, stored at any address, and every
declared label, `tu_cast_ptr` on a pointer to the instance returns without changing
the state; its result is non-null exactly when `tu_check` of the instance against the
label's constant is true; a non-null result is the address of the member of that label
in that instance, so reading through it reads the payload stored under the label; and
when the instance is the one `tu_new` builds for the label and a value, the result is
non-null and the value read through it is that value. -/
theorem extract_by_reference (entries : List Entry) (e : Entry) (u : TaggedUnion)
    (p : Eval Ptr) (a : Nat) (w : World)
    (hu : UniqueLabels entries) (he : e ∈ entries)
    (hp : p w = .ok (some a, w)) (ha : w.heap[a]? = some u) :
    ∃ t r, tagValue (tagged_union entries) e.tag_label = some t ∧
      tu_cast_ptr (tagged_union entries) e.tag_label p w = .ok (r, w) ∧
      (r ≠ none ↔ tu_check (obj a) t w = .ok (true, w)) ∧
      (∀ h, r = some h → h = ⟨a, e.tag_label⟩ ∧
        loadMember (tagged_union entries) w h = readMember (tagged_union entries) e.tag_label u) ∧
      (∀ v, tu_new (tagged_union entries) e.tag_label v = .ok u →
        r = some ⟨a, e.tag_label⟩ ∧
        loadMember (tagged_union entries) w ⟨a, e.tag_label⟩ = .ok v) := by
  refine ⟨_, _, tagValue_of_mem entries e he, tu_cast_ptr_pure entries e u p a w hu he hp ha,
    ?_, ?_, ?_⟩
  · have hobj : obj a w = .ok (u, w) := by simp [obj, deref, ha]
    rw [tu_check_pure (obj a) u _ w hobj]
    by_cases h : u.tag_value = (labels entries).indexOf e.tag_label <;> simp [h]
  · intro h hr
    by_cases hc : u.tag_value = (labels entries).indexOf e.tag_label
    · simp only [hc, if_true, Option.some.injEq] at hr
      subst hr
      exact ⟨rfl, by rw [loadMember_ok entries e w a u hu he ha,
        readMember_of_mem entries e u hu he]⟩
    · simp [hc] at hr
  · intro v hv
    have hmem := memberSize_of_mem entries e hu he
    have htag := tagValue_of_mem entries e he
    simp only [tu_new, htag, hmem] at hv
    split at hv
    · rename_i hlen
      simp only [Except.ok.injEq] at hv
      subst hv
      refine ⟨by simp, ?_⟩
      rw [loadMember_ok entries e w a _ hu he ha]
      simp [take_storeBytes _ _ _ hlen]
    · cases hv

/-- A pointer to a circle stored at address 0, extracted as a circle. -/
theorem extract_by_reference_witness :
    UniqueLabels shape ∧ (⟨"Circle", 4⟩ : Entry) ∈ shape ∧
    addrOf 0 ⟨[⟨0, [1, 2, 3, 4, 0, 0, 0, 0]⟩], []⟩
      = .ok (some 0, ⟨[⟨0, [1, 2, 3, 4, 0, 0, 0, 0]⟩], []⟩) ∧
    (⟨[⟨0, [1, 2, 3, 4, 0, 0, 0, 0]⟩], []⟩ : World).heap[0]?
      = some ⟨0, [1, 2, 3, 4, 0, 0, 0, 0]⟩ ∧
    ∃ t r, tagValue (tagged_union shape) "Circle" = some t ∧
      tu_cast_ptr (tagged_union shape) "Circle" (addrOf 0) ⟨[⟨0, [1, 2, 3, 4, 0, 0, 0, 0]⟩], []⟩
        = .ok (r, ⟨[⟨0, [1, 2, 3, 4, 0, 0, 0, 0]⟩], []⟩) ∧
      (r ≠ none ↔ tu_check (obj 0) t ⟨[⟨0, [1, 2, 3, 4, 0, 0, 0, 0]⟩], []⟩
        = .ok (true, ⟨[⟨0, [1, 2, 3, 4, 0, 0, 0, 0]⟩], []⟩)) ∧
      (∀ h, r = some h → h = ⟨0, "Circle"⟩ ∧
        loadMember (tagged_union shape) ⟨[⟨0, [1, 2, 3, 4, 0, 0, 0, 0]⟩], []⟩ h
          = readMember (tagged_union shape) "Circle" ⟨0, [1, 2, 3, 4, 0, 0, 0, 0]⟩) ∧
      (∀ v, tu_new (tagged_union shape) "Circle" v = .ok ⟨0, [1, 2, 3, 4, 0, 0, 0, 0]⟩ →
        r = some ⟨0, "Circle"⟩ ∧
        loadMember (tagged_union shape) ⟨[⟨0, [1, 2, 3, 4, 0, 0, 0, 0]⟩], []⟩ ⟨0, "Circle"⟩
          = .ok v) :=
  ⟨by decide, by decide, rfl, rfl,
    extract_by_reference shape ⟨"Circle", 4⟩ ⟨0, [1, 2, 3, 4, 0, 0, 0, 0]⟩ (addrOf 0) 0
      ⟨[⟨0, [1, 2, 3, 4, 0, 0, 0, 0]⟩], []⟩ (by decide) (by decide) rfl rfl⟩

/-! ## The dispatch construct: lemmas -/

theorem split_at_index (bs : List Branch) (k : Nat) (b : Branch) (hk : bs[k]? = some b) :
    bs = bs.take k ++ b :: bs.drop (k + 1) ∧ (bs.take k).length = k := by
  rcases List.getElem?_eq_some.mp hk with ⟨hlt, hb⟩
  refine ⟨?_, ?_⟩
  · rw [← hb, ← List.drop_eq_getElem_cons hlt, List.take_append_drop]
  · simp [List.length_take]; omega

theorem expandBranches_append (i : Nat) (xs ys : List Branch) :
    expandBranches i (xs ++ ys) = expandBranches i xs ++ expandBranches (i + xs.length) ys := by
  induction xs generalizing i with
  | nil => simp [expandBranches]
  | cons x xs ih =>
    cases x <;>
      simp [expandBranches, ih, Nat.add_assoc, Nat.add_comm 1]

theorem caseLabels_append (xs ys : List Branch) :
    caseLabels (xs ++ ys) = caseLabels xs ++ caseLabels ys := by
  induction xs with
  | nil => simp [caseLabels]
  | cons x xs ih => cases x <;> simp [caseLabels, ih]

theorem defaultCount_append (xs ys : List Branch) :
    defaultCount (xs ++ ys) = defaultCount xs + defaultCount ys := by
  induction xs with
  | nil => simp [defaultCount]
  | cons x xs ih =>
    cases x with
    | tu_matches L body => simp [defaultCount, ih]
    | tu_no_match body => simp [defaultCount, ih]; omega

theorem findCase_skip (T : Generated) (t i : Nat) (xs : List Branch) (rest : List Item)
    (h : ∀ L ∈ caseLabels xs, tagValue T L ≠ some t) :
    findCase T t (expandBranches i xs ++ rest) = findCase T t rest := by
  induction xs generalizing i with
  | nil => simp [expandBranches]
  | cons x xs ih =>
    cases x with
    | tu_matches L body =>
      have h1 : tagValue T L ≠ some t := h L (by simp [caseLabels])
      have h2 : ∀ L ∈ caseLabels xs, tagValue T L ≠ some t :=
        fun M hM => h M (by simp [caseLabels, hM])
      simp [expandBranches, tu_matches, findCase, h1, ih _ h2]
    | tu_no_match body =>
      have h2 : ∀ L ∈ caseLabels xs, tagValue T L ≠ some t :=
        fun M hM => h M (by simpa [caseLabels] using hM)
      simp [expandBranches, tu_no_match, findCase, ih _ h2]

theorem findDefault_skip (i : Nat) (xs : List Branch) (rest : List Item)
    (h : defaultCount xs = 0) :
    findDefault (expandBranches i xs ++ rest) = findDefault rest := by
  induction xs generalizing i with
  | nil => simp [expandBranches]
  | cons x xs ih =>
    cases x with
    | tu_matches L body =>
      simp only [defaultCount] at h
      simp [expandBranches, tu_matches, findDefault, ih _ h]
    | tu_no_match body => simp [defaultCount] at h

theorem run_after_branch (T : Generated) (tu : Ptr) (j : Nat) (ys : List Branch)
    (h : Option MemberPtr) (w : World) :
    run T tu (expandBranches j ys ++ tu_resolved) h w = .ok ([], w) := by
  cases ys with
  | nil => simp [expandBranches, tu_resolved, run]
  | cons y ys => cases y <;> simp [expandBranches, tu_matches, tu_no_match, run]

theorem execSwitch_case (T : Generated) (tu : Ptr) (t : Nat) (site : Site) (k : Nat)
    (L : String) (body : Code) (w : World)
    (hk : site.branches[k]? = some (Branch.tu_matches L body)) (ht : tagValue T L = some t)
    (hnd : ((caseLabels site.branches).map (tagValue T)).Nodup) :
    execSwitch T tu t (switchBody site) w =
      match addressOfMember T w tu L with
      | .ok m => .ok ([⟨.branch k, some m⟩], body (some m) w)
      | .error f => .error f := by
  rcases split_at_index _ _ _ hk with ⟨hsplit, hlen⟩
  have hpre : ∀ M ∈ caseLabels (site.branches.take k), tagValue T M ≠ some t := by
    intro M hM hc
    rw [hsplit, caseLabels_append] at hnd
    simp only [caseLabels, List.map_append, List.map_cons] at hnd
    have h3 := (List.nodup_append.mp hnd).2.2
    exact h3 (List.mem_map_of_mem (tagValue T) hM) (by simp [hc, ht])
  have hfind : findCase T t (switchBody site) =
      some (.openBlock :: .declHandle L :: .user (.branch k) body ::
        (expandBranches (k + 1) (site.branches.drop (k + 1)) ++ tu_resolved)) := by
    simp only [switchBody, findCase]
    rw [hsplit, expandBranches_append, List.append_assoc, findCase_skip T t 0 _ _ hpre, hlen]
    rw [← hsplit]
    simp [expandBranches, tu_matches, findCase, ht]
  simp only [execSwitch, hfind, run]
  cases addressOfMember T w tu L with
  | error f => rfl
  | ok m => simp [run_after_branch]

theorem execSwitch_default (T : Generated) (tu : Ptr) (t : Nat) (site : Site) (k : Nat)
    (body : Code) (w : World)
    (hk : site.branches[k]? = some (Branch.tu_no_match body))
    (hmiss : ∀ L ∈ caseLabels site.branches, tagValue T L ≠ some t)
    (hone : defaultCount site.branches ≤ 1) :
    execSwitch T tu t (switchBody site) w = .ok ([⟨.branch k, none⟩], body none w) := by
  rcases split_at_index _ _ _ hk with ⟨hsplit, hlen⟩
  have hpre : defaultCount (site.branches.take k) = 0 := by
    rw [hsplit, defaultCount_append] at hone
    simp only [defaultCount] at hone
    omega
  have hcase : findCase T t (switchBody site) = none := by
    simp only [switchBody, findCase]
    rw [findCase_skip T t 0 _ _ hmiss]
    simp [tu_resolved, findCase]
  have hfind : findDefault (switchBody site) =
      some (.openBlock :: .user (.branch k) body ::
        (expandBranches (k + 1) (site.branches.drop (k + 1)) ++ tu_resolved)) := by
    simp only [switchBody, findDefault]
    rw [hsplit, expandBranches_append, List.append_assoc, findDefault_skip 0 _ _ hpre, hlen]
    rw [← hsplit]
    simp [expandBranches, tu_no_match, findDefault]
  simp [execSwitch, hcase, hfind, run, run_after_branch]

theorem execSwitch_none (T : Generated) (tu : Ptr) (t : Nat) (site : Site) (w : World)
    (hmiss : ∀ L ∈ caseLabels site.branches, tagValue T L ≠ some t)
    (hzero : defaultCount site.branches = 0) :
    execSwitch T tu t (switchBody site) w = .ok ([], w) := by
  have hcase : findCase T t (switchBody site) = none := by
    simp only [switchBody, findCase]
    rw [findCase_skip T t 0 _ _ hmiss]
    simp [tu_resolved, findCase]
  have hfind : findDefault (switchBody site) = none := by
    simp only [switchBody, findDefault]
    rw [findDefault_skip 0 _ _ hzero]
    simp [tu_resolved, findDefault]
  simp [execSwitch, hcase, hfind]

theorem compiles_iff (T : Generated) (site : Site) :
    compiles T site = true ↔
      (∀ L ∈ caseLabels site.branches, (tagValue T L).isSome ∧ (memberSize T L).isSome) ∧
      ((caseLabels site.branches).map (tagValue T)).Nodup ∧
      defaultCount site.branches ≤ 1 := by
  simp [compiles, and_assoc]

theorem tu_resolve_pure (T : Generated) (p : Eval Ptr) (site : Site) (w : World) (a : Nat)
    (u : TaggedUnion) (hc : compiles T site = true)
    (hp : p w = .ok (some a, w)) (ha : w.heap[a]? = some u) :
    tu_resolve T p site w = execSwitch T (some a) u.tag_value (switchBody site) w := by
  simp [tu_resolve, hc, hp, deref, ha]

theorem mem_caseLabels (bs : List Branch) (L : String) (h : L ∈ caseLabels bs) :
    ∃ (k : Nat) (body : Code), bs[k]? = some (Branch.tu_matches L body) := by
  induction bs with
  | nil => simp [caseLabels] at h
  | cons b bs ih =>
    cases b with
    | tu_matches M body =>
      simp only [caseLabels, List.mem_cons] at h
      rcases h with h | h
      · exact ⟨0, body, by simp [h]⟩
      · rcases ih h with ⟨k, body1, hk⟩
        exact ⟨k + 1, body1, by simpa using hk⟩
    | tu_no_match body =>
      simp only [caseLabels] at h
      rcases ih h with ⟨k, body1, hk⟩
      exact ⟨k + 1, body1, by simpa using hk⟩

theorem caseLabels_of_index (bs : List Branch) (k : Nat) (L : String) (body : Code)
    (h : bs[k]? = some (Branch.tu_matches L body)) : L ∈ caseLabels bs := by
  rcases split_at_index bs k _ h with ⟨hs, _⟩
  rw [hs, caseLabels_append]
  simp [caseLabels]

theorem exists_default (bs : List Branch) (h : defaultCount bs ≠ 0) :
    ∃ (k : Nat) (body : Code), bs[k]? = some (Branch.tu_no_match body) := by
  induction bs with
  | nil => simp [defaultCount] at h
  | cons b bs ih =>
    cases b with
    | tu_matches M body =>
      simp only [defaultCount] at h
      rcases ih h with ⟨k, body1, hk⟩
      exact ⟨k + 1, body1, by simpa using hk⟩
    | tu_no_match body => exact ⟨0, body, by simp⟩

theorem body_mem_bodies (bs : List Branch) (k : Nat) (b : Branch) (h : bs[k]? = some b) :
    (∀ L body, b = .tu_matches L body → body ∈ bodies bs) ∧
    (∀ body, b = .tu_no_match body → body ∈ bodies bs) := by
  induction bs generalizing k with
  | nil => simp at h
  | cons x xs ih =>
    cases k with
    | zero =>
      simp only [List.getElem?_cons_zero, Option.some.injEq] at h
      subst h
      constructor
      · intro L body hb; subst hb; simp [bodies]
      · intro body hb; subst hb; simp [bodies]
    | succ k =>
      simp only [List.getElem?_cons_succ] at h
      have := ih k h
      constructor
      · intro L body hb
        cases x <;> simp [bodies, this.1 L body hb]
      · intro body hb
        cases x <;> simp [bodies, this.2 body hb]

/-- What a dispatch through a valid pointer does, at a site the compiler accepts:
either the discriminant is the constant of a `tu_matches` branch, and exactly the body
of that branch runs, with the handle on that member of the instance; or it is the
constant of no `tu_matches` branch and the body of the `tu_no_match` branch runs, with no
handle; or it is the constant of no branch, there is no `tu_no_match`, and nothing runs. -/
theorem tu_resolve_cases (T : Generated) (p : Eval Ptr) (site : Site) (w : World) (a : Nat)
    (u : TaggedUnion) (hc : compiles T site = true)
    (hp : p w = .ok (some a, w)) (ha : w.heap[a]? = some u) :
    (∃ (k : Nat) (L : String) (body : Code), site.branches[k]? = some (Branch.tu_matches L body) ∧
        tagValue T L = some u.tag_value ∧
        tu_resolve T p site w
          = .ok ([⟨.branch k, some ⟨a, L⟩⟩], body (some ⟨a, L⟩) w)) ∨
    (∃ (k : Nat) (body : Code), site.branches[k]? = some (Branch.tu_no_match body) ∧
        (∀ L ∈ caseLabels site.branches, tagValue T L ≠ some u.tag_value) ∧
        tu_resolve T p site w = .ok ([⟨.branch k, none⟩], body none w)) ∨
    ((∀ L ∈ caseLabels site.branches, tagValue T L ≠ some u.tag_value) ∧
        defaultCount site.branches = 0 ∧
        tu_resolve T p site w = .ok ([], w)) := by
  rw [tu_resolve_pure T p site w a u hc hp ha]
  rcases (compiles_iff T site).mp hc with ⟨hdecl, hnd, hone⟩
  by_cases hhit : ∃ L ∈ caseLabels site.branches, tagValue T L = some u.tag_value
  · rcases hhit with ⟨L, hL, ht⟩
    rcases mem_caseLabels _ _ hL with ⟨k, body, hk⟩
    refine Or.inl ⟨k, L, body, hk, ht, ?_⟩
    rw [execSwitch_case T (some a) _ site k L body w hk ht hnd]
    have hsz := (hdecl L hL).2
    rcases Option.isSome_iff_exists.mp hsz with ⟨n, hn⟩
    simp [addressOfMember, hn, lt_length_of_getElem? _ _ _ ha]
  · have hmiss : ∀ L ∈ caseLabels site.branches, tagValue T L ≠ some u.tag_value :=
      fun L hL hc1 => hhit ⟨L, hL, hc1⟩
    by_cases hd : defaultCount site.branches = 0
    · exact Or.inr (Or.inr ⟨hmiss, hd, execSwitch_none T _ _ site w hmiss hd⟩)
    · rcases exists_default _ hd with ⟨k, body, hk⟩
      exact Or.inr (Or.inl ⟨k, body, hk, hmiss,
        execSwitch_default T _ _ site k body w hk hmiss hone⟩)

/-- C6. Dispatch selects exactly one branch: at a site the compiler accepts that has a
`tu_matches` branch for a declared label, the dispatch on a pointer to the instance
`tu_new` builds for that label and a value runs the body of that branch once, with a
handle that points to the member of that label in the instance, where the value is
read; it runs no other user code (no other branch, not the `tu_no_match` body, not
what stands before the first branch) and then leaves the `switch` normally. -/
theorem dispatch_selects_one_branch (entries : List Entry) (e : Entry) (v : Bytes)
    (site : Site) (i : Nat) (body : Code) (p : Eval Ptr) (a : Nat) (w : World)
    (hu : UniqueLabels entries) (he : e ∈ entries) (hv : v.length = e.size)
    (hc : compiles (tagged_union entries) site = true)
    (hi : site.branches[i]? = some (Branch.tu_matches e.tag_label body))
    (hp : p w = .ok (some a, w)) :
    ∃ u, tu_new (tagged_union entries) e.tag_label v = .ok u ∧
      (w.heap[a]? = some u →
        tu_resolve (tagged_union entries) p site w
          = .ok ([⟨.branch i, some ⟨a, e.tag_label⟩⟩], body (some ⟨a, e.tag_label⟩) w) ∧
        loadMember (tagged_union entries) w ⟨a, e.tag_label⟩ = .ok v) := by
  refine ⟨_, tu_new_ok entries e v hu he hv, ?_⟩
  intro ha
  rcases (compiles_iff _ site).mp hc with ⟨_, hnd, _⟩
  refine ⟨?_, ?_⟩
  · rw [tu_resolve_pure _ p site w a _ hc hp ha,
      execSwitch_case _ (some a) _ site i e.tag_label body w hi
        (tagValue_of_mem entries e he) hnd,
      addressOfMember_ok entries e w a _ hu he ha]
  · rw [loadMember_ok entries e w a _ hu he ha]
    simp [take_storeBytes _ _ _ hv]

/-- The dispatch on the circle of `twoShapes` at `fullSite` runs the `Circle` branch. -/
theorem dispatch_selects_one_branch_witness :
    UniqueLabels shape ∧ (⟨"Circle", 4⟩ : Entry) ∈ shape ∧ ([1, 2, 3, 4] : Bytes).length = 4 ∧
    compiles (tagged_union shape) fullSite = true ∧
    fullSite.branches[0]? = some (Branch.tu_matches "Circle" (mark 1)) ∧
    addrOf 0 twoShapes = .ok (some 0, twoShapes) ∧
    ∃ u, tu_new (tagged_union shape) "Circle" [1, 2, 3, 4] = .ok u ∧
      (twoShapes.heap[0]? = some u →
        tu_resolve (tagged_union shape) (addrOf 0) fullSite twoShapes
          = .ok ([⟨.branch 0, some ⟨0, "Circle"⟩⟩], mark 1 (some ⟨0, "Circle"⟩) twoShapes) ∧
        loadMember (tagged_union shape) twoShapes ⟨0, "Circle"⟩ = .ok [1, 2, 3, 4]) :=
  ⟨by decide, by decide, rfl, by decide, rfl, rfl,
    dispatch_selects_one_branch shape ⟨"Circle", 4⟩ [1, 2, 3, 4] fullSite 0 (mark 1)
      (addrOf 0) 0 twoShapes (by decide) (by decide) rfl (by decide) rfl rfl⟩

/-- C7. Default-branch reachability: at a site the compiler accepts that has a
`tu_no_match` branch, the dispatch on a pointer to an instance whose discriminant is the
constant of no `tu_matches` branch of the site runs the `tu_no_match` body once, with no
handle bound, runs no `tu_matches` body nor any other user code, and leaves the `switch`
normally. -/
theorem default_branch_reachability (T : Generated) (site : Site) (j : Nat) (body : Code)
    (p : Eval Ptr) (a : Nat) (w : World) (u : TaggedUnion)
    (hc : compiles T site = true)
    (hj : site.branches[j]? = some (Branch.tu_no_match body))
    (hp : p w = .ok (some a, w)) (ha : w.heap[a]? = some u)
    (hmiss : ∀ L ∈ caseLabels site.branches, tagValue T L ≠ some u.tag_value) :
    tu_resolve T p site w = .ok ([⟨.branch j, none⟩], body none w) := by
  rcases (compiles_iff T site).mp hc with ⟨_, _, hone⟩
  rw [tu_resolve_pure T p site w a u hc hp ha]
  exact execSwitch_default T _ _ site j body w hj hmiss hone

/-- The dispatch on the rectangle of `twoShapes` at `circleSite`, which has no branch
for `Rectangle`, runs the default branch. -/
theorem default_branch_reachability_witness :
    compiles (tagged_union shape) circleSite = true ∧
    circleSite.branches[1]? = some (Branch.tu_no_match (mark 3)) ∧
    addrOf 1 twoShapes = .ok (some 1, twoShapes) ∧
    twoShapes.heap[1]? = some ⟨1, [5, 6, 7, 8, 9, 10, 11, 12]⟩ ∧
    (∀ L ∈ caseLabels circleSite.branches, tagValue (tagged_union shape) L ≠ some 1) ∧
    tu_resolve (tagged_union shape) (addrOf 1) circleSite twoShapes
      = .ok ([⟨.branch 1, none⟩], mark 3 none twoShapes) :=
  ⟨by decide, rfl, rfl, rfl, by decide,
    default_branch_reachability (tagged_union shape) circleSite 1 (mark 3) (addrOf 1) 1
      twoShapes ⟨1, [5, 6, 7, 8, 9, 10, 11, 12]⟩ (by decide) rfl rfl rfl (by decide)⟩

theorem tagValue_of_index (entries : List Entry) (hu : UniqueLabels entries) (i : Nat)
    (e : Entry) (hi : entries[i]? = some e) :
    tagValue (tagged_union entries) e.tag_label = some i := by
  rcases List.getElem?_eq_some.mp hi with ⟨hlt, hget⟩
  have he : e ∈ entries := hget ▸ List.getElem_mem hlt
  rw [tagValue_of_mem entries e he]
  have hlt2 : i < (labels entries).length := by simpa [labels] using hlt
  have hlab : (labels entries)[i] = e.tag_label := by simp [labels, hget]
  rw [← hlab, List.indexOf_getElem hu i hlt2]

/-- C8. Discriminant assignment: for a non-empty entry list with unique labels,
`tagged_union(entries)` declares exactly one enumeration constant per label, in the
order of the entries, with the values 0, 1, 2, ... in that order: the first entry gets
0, the entry at position `i` gets `i`, and two declared labels that differ have
different values. -/
theorem discriminant_assignment (entries : List Entry) (hne : entries ≠ [])
    (hu : UniqueLabels entries) :
    (tagged_union entries).tags.map Prod.fst = labels entries ∧
    (tagged_union entries).tags.map Prod.snd = List.range entries.length ∧
    (∃ first, entries.head? = some first ∧
      tagValue (tagged_union entries) first.tag_label = some 0) ∧
    (∀ (i : Nat) (e : Entry), entries[i]? = some e →
      tagValue (tagged_union entries) e.tag_label = some i) ∧
    (∀ e m, e ∈ entries → m ∈ entries → e.tag_label ≠ m.tag_label →
      tagValue (tagged_union entries) e.tag_label
        ≠ tagValue (tagged_union entries) m.tag_label) := by
  refine ⟨?_, ?_, ?_, ?_, ?_⟩
  · exact enumerators_fst _ 0
  · have := enumerators_snd (entries.map __tu_create_tags) 0
    simpa [tagged_union, List.range_eq_range'] using this
  · cases entries with
    | nil => exact absurd rfl hne
    | cons x xs => exact ⟨x, rfl, tagValue_of_index _ hu 0 x (by simp)⟩
  · exact fun i e hi => tagValue_of_index entries hu i e hi
  · intro e m he hm hne2 hc
    rw [tagValue_of_mem entries e he] at hc
    exact hne2 (tagValue_inj entries _ _ _ (tagValue_of_mem entries e he) (hc ▸ rfl))

/-- The enumeration generated for the entry list of the example scenario. -/
theorem discriminant_assignment_witness :
    shape ≠ [] ∧ UniqueLabels shape ∧
    (tagged_union shape).tags.map Prod.fst = labels shape ∧
    (tagged_union shape).tags.map Prod.snd = List.range shape.length ∧
    (∃ first, shape.head? = some first ∧
      tagValue (tagged_union shape) first.tag_label = some 0) ∧
    (∀ (i : Nat) (e : Entry), shape[i]? = some e →
      tagValue (tagged_union shape) e.tag_label = some i) ∧
    (∀ e m, e ∈ shape → m ∈ shape → e.tag_label ≠ m.tag_label →
      tagValue (tagged_union shape) e.tag_label
        ≠ tagValue (tagged_union shape) m.tag_label) :=
  ⟨by decide, by decide, discriminant_assignment shape (by decide) (by decide)⟩

theorem tu_new_inv (T : Generated) (L : String) (v : Bytes) (u : TaggedUnion)
    (h : tu_new T L v = .ok u) :
    tagValue T L = some u.tag_value ∧ memberSize T L = some v.length ∧
      u.untagged_union = storeBytes v (List.replicate (unionSize T) 0) := by
  unfold tu_new at h
  split at h
  · rename_i t n ht hn
    split at h
    · rename_i hlen
      simp only [Except.ok.injEq] at h
      subst h
      exact ⟨ht, by rw [hn, hlen], rfl⟩
    · cases h
  · cases h

/-- C9. Closed discriminant: the discriminant of an instance `tu_new` produces is the
constant of a declared label, namely of the label given to `tu_new`, and is smaller
than the number of entries; so at a site the compiler accepts that has a `tu_matches`
branch for every declared label, the dispatch on a pointer to such an instance returns
and the user code it ran is not the body of a `tu_no_match` branch. -/
theorem closed_discriminant (entries : List Entry) (L : String) (v : Bytes) (u : TaggedUnion)
    (hnew : tu_new (tagged_union entries) L v = .ok u) :
    (∃ e ∈ entries, e.tag_label = L ∧
      tagValue (tagged_union entries) e.tag_label = some u.tag_value ∧
      u.tag_value < entries.length) ∧
    ∀ (site : Site) (p : Eval Ptr) (a : Nat) (w : World),
      compiles (tagged_union entries) site = true →
      (∀ e ∈ entries, e.tag_label ∈ caseLabels site.branches) →
      p w = .ok (some a, w) → w.heap[a]? = some u →
      ∃ events w1, tu_resolve (tagged_union entries) p site w = .ok (events, w1) ∧
        ∀ ev ∈ events, ∀ (j : Nat) (body : Code),
          site.branches[j]? = some (Branch.tu_no_match body) → ev.region ≠ .branch j := by
  rcases tu_new_inv _ L v u hnew with ⟨htag, _, _⟩
  have hmemL : L ∈ labels entries := by
    rw [tagValue_eq] at htag
    by_contra hc
    simp [hc] at htag
  have hdecl : ∃ e ∈ entries, e.tag_label = L := by
    simpa [labels] using hmemL
  refine ⟨?_, ?_⟩
  · rcases hdecl with ⟨e, he, hl⟩
    refine ⟨e, he, hl, hl ▸ htag, ?_⟩
    rw [tagValue_eq] at htag
    simp only [hmemL, if_true, Option.some.injEq] at htag
    have := List.indexOf_lt_length.mpr hmemL
    rw [htag] at this
    simpa [labels] using this
  · intro site p a w hc hcover hp ha
    rcases hdecl with ⟨e, he, hl⟩
    have hcase : L ∈ caseLabels site.branches := hl ▸ hcover e he
    rcases tu_resolve_cases _ p site w a u hc hp ha with
      ⟨k, M, body, hk, _, hres⟩ | ⟨k, body, _, hmiss, _⟩ | ⟨hmiss, _, _⟩
    · refine ⟨_, _, hres, ?_⟩
      intro ev hev j body1 hj hreg
      simp only [List.mem_singleton] at hev
      subst hev
      simp only [Region.branch.injEq] at hreg
      subst hreg
      rw [hk] at hj
      cases hj
    · exact absurd htag (hmiss L hcase)
    · exact absurd htag (hmiss L hcase)

/-- The circle `tu_new` builds never reaches a default branch of a site that covers
both labels. -/
theorem closed_discriminant_witness :
    tu_new (tagged_union shape) "Circle" [1, 2, 3, 4] = .ok ⟨0, [1, 2, 3, 4, 0, 0, 0, 0]⟩ ∧
    (∃ e ∈ shape, e.tag_label = "Circle" ∧
      tagValue (tagged_union shape) e.tag_label
        = some (⟨0, [1, 2, 3, 4, 0, 0, 0, 0]⟩ : TaggedUnion).tag_value ∧
      (⟨0, [1, 2, 3, 4, 0, 0, 0, 0]⟩ : TaggedUnion).tag_value < shape.length) ∧
    ∀ (site : Site) (p : Eval Ptr) (a : Nat) (w : World),
      compiles (tagged_union shape) site = true →
      (∀ e ∈ shape, e.tag_label ∈ caseLabels site.branches) →
      p w = .ok (some a, w) → w.heap[a]? = some ⟨0, [1, 2, 3, 4, 0, 0, 0, 0]⟩ →
      ∃ events w1, tu_resolve (tagged_union shape) p site w = .ok (events, w1) ∧
        ∀ ev ∈ events, ∀ (j : Nat) (body : Code),
          site.branches[j]? = some (Branch.tu_no_match body) → ev.region ≠ .branch j :=
  ⟨rfl, closed_discriminant shape "Circle" [1, 2, 3, 4] ⟨0, [1, 2, 3, 4, 0, 0, 0, 0]⟩ rfl⟩

theorem tu_cast_pure (NDEBUG : Bool) (entries : List Entry) (e : Entry) (u : TaggedUnion)
    (x : Eval TaggedUnion) (w : World) (hu : UniqueLabels entries) (he : e ∈ entries)
    (hx : x w = .ok (u, w)) :
    tu_cast NDEBUG (tagged_union entries) e.tag_label x w =
      if NDEBUG = false ∧ u.tag_value ≠ (labels entries).indexOf e.tag_label
      then .error .abort else .ok (u.untagged_union.take e.size, w) := by
  cases NDEBUG
  · by_cases h : u.tag_value = (labels entries).indexOf e.tag_label
    · have hb : (u.tag_value == (labels entries).indexOf e.tag_label) = true := by simpa using h
      simp [tu_cast, tagValue_of_mem entries e he, c_assert, tu_check_pure x u _ w hx, hb, hx,
        readMember_of_mem entries e u hu he, h]
    · have hb : (u.tag_value == (labels entries).indexOf e.tag_label) = false := by
        simpa using h
      simp [tu_cast, tagValue_of_mem entries e he, c_assert, tu_check_pure x u _ w hx, hb, h]
  · simp [tu_cast, tagValue_of_mem entries e he, c_assert, hx,
      readMember_of_mem entries e u hu he]

theorem obj_pure (a : Nat) (w : World) (u : TaggedUnion) (ha : w.heap[a]? = some u) :
    obj a w = .ok (u, w) := by
  simp [obj, deref, ha]

/-- C10. Only construction changes an instance: with an instance stored at an address
and named by expressions without side effects, `tu_check` and `tu_check_ptr` return their
answer in the unchanged state; `tu_cast` with a declared label either terminates the
process or returns in the unchanged state; `tu_cast_ptr` with a declared label returns
in the unchanged state; and a dispatch at a site the compiler accepts returns, in the
unchanged state when no user code ran, and otherwise in a state in which the instance
is still the same whenever the bodies of the branches leave it the same: the entry of
the dispatch, the binding of the handle and the exit write nothing. -/
theorem only_construction_changes (NDEBUG : Bool) (entries : List Entry) (e : Entry)
    (t : Nat) (site : Site) (p : Eval Ptr) (a : Nat) (w : World) (u : TaggedUnion)
    (hu : UniqueLabels entries) (he : e ∈ entries)
    (hp : p w = .ok (some a, w)) (ha : w.heap[a]? = some u) :
    tu_check (obj a) t w = .ok (u.tag_value == t, w) ∧
    tu_check_ptr p t w = .ok (u.tag_value == t, w) ∧
    (tu_cast NDEBUG (tagged_union entries) e.tag_label (obj a) w = .error .abort ∨
      ∃ r, tu_cast NDEBUG (tagged_union entries) e.tag_label (obj a) w = .ok (r, w)) ∧
    (∃ r, tu_cast_ptr (tagged_union entries) e.tag_label p w = .ok (r, w)) ∧
    (compiles (tagged_union entries) site = true →
      ∃ events w1, tu_resolve (tagged_union entries) p site w = .ok (events, w1) ∧
        (events = [] → w1 = w) ∧
        ((∀ code ∈ bodies site.branches, ∀ (h : Option MemberPtr) (w0 : World),
            w0.heap[a]? = some u → (code h w0).heap[a]? = some u) →
          w1.heap[a]? = some u)) := by
  refine ⟨tu_check_pure _ u t w (obj_pure a w u ha), tu_check_ptr_pure p a u t w hp ha,
    ?_, ⟨_, tu_cast_ptr_pure entries e u p a w hu he hp ha⟩, ?_⟩
  · rw [tu_cast_pure NDEBUG entries e u (obj a) w hu he (obj_pure a w u ha)]
    split
    · exact Or.inl rfl
    · exact Or.inr ⟨_, rfl⟩
  · intro hc
    rcases tu_resolve_cases _ p site w a u hc hp ha with
      ⟨k, M, body, hk, _, hres⟩ | ⟨k, body, hk, _, hres⟩ | ⟨_, _, hres⟩
    · refine ⟨_, _, hres, by simp, ?_⟩
      intro hframe
      exact hframe body ((body_mem_bodies _ k _ hk).1 M body rfl) _ w ha
    · refine ⟨_, _, hres, by simp, ?_⟩
      intro hframe
      exact hframe body ((body_mem_bodies _ k _ hk).2 body rfl) _ w ha
    · exact ⟨_, _, hres, fun _ => rfl, fun _ => ha⟩

/-- The operations applied to the circle of `twoShapes` leave it as it was. -/
theorem only_construction_changes_witness :
    UniqueLabels shape ∧ (⟨"Rectangle", 8⟩ : Entry) ∈ shape ∧
    addrOf 0 twoShapes = .ok (some 0, twoShapes) ∧
    twoShapes.heap[0]? = some ⟨0, [1, 2, 3, 4, 0, 0, 0, 0]⟩ ∧
    (tu_check (obj 0) 1 twoShapes = .ok ((0 : Nat) == 1, twoShapes) ∧
    tu_check_ptr (addrOf 0) 1 twoShapes = .ok ((0 : Nat) == 1, twoShapes) ∧
    (tu_cast false (tagged_union shape) "Rectangle" (obj 0) twoShapes = .error .abort ∨
      ∃ r, tu_cast false (tagged_union shape) "Rectangle" (obj 0) twoShapes
        = .ok (r, twoShapes)) ∧
    (∃ r, tu_cast_ptr (tagged_union shape) "Rectangle" (addrOf 0) twoShapes
      = .ok (r, twoShapes)) ∧
    (compiles (tagged_union shape) fullSite = true →
      ∃ events w1, tu_resolve (tagged_union shape) (addrOf 0) fullSite twoShapes
          = .ok (events, w1) ∧
        (events = [] → w1 = twoShapes) ∧
        ((∀ code ∈ bodies fullSite.branches, ∀ (h : Option MemberPtr) (w0 : World),
            w0.heap[0]? = some ⟨0, [1, 2, 3, 4, 0, 0, 0, 0]⟩ →
            (code h w0).heap[0]? = some ⟨0, [1, 2, 3, 4, 0, 0, 0, 0]⟩) →
          w1.heap[0]? = some ⟨0, [1, 2, 3, 4, 0, 0, 0, 0]⟩))) :=
  ⟨by decide, by decide, rfl, rfl,
    only_construction_changes false shape ⟨"Rectangle", 8⟩ 1 fullSite (addrOf 0) 0 twoShapes
      ⟨0, [1, 2, 3, 4, 0, 0, 0, 0]⟩ (by decide) (by decide) rfl rfl⟩

/-- C11 fails on the code: `tu_resolve` evaluates its pointer argument twice, once for
the captured `__tu` and once for the discriminant of the `switch`. With the argument
`shapes + i++` on a circle at address 0 and a rectangle at address 1, the discriminant
of the rectangle selects the `Rectangle` branch while the handle bound in that branch
points into the circle, whose discriminant is `Circle`. -/
theorem pointer_argument_evaluated_twice :
    tu_resolve (tagged_union shape) nextShape fullSite countedShapes
      = .ok ([⟨.branch 1, some ⟨0, "Rectangle"⟩⟩],
          mark 2 (some ⟨0, "Rectangle"⟩) { twoShapes with locals := [2] }) ∧
    fullSite.branches[1]? = some (Branch.tu_matches "Rectangle" (mark 2)) ∧
    tagValue (tagged_union shape) "Rectangle" = some 1 ∧
    countedShapes.heap[0]? = some ⟨0, [1, 2, 3, 4, 0, 0, 0, 0]⟩ ∧
    countedShapes.heap[1]? = some ⟨1, [5, 6, 7, 8, 9, 10, 11, 12]⟩ ∧
    tu_check (obj 0) 1 countedShapes = .ok (false, countedShapes) :=
  ⟨rfl, rfl, rfl, rfl, rfl, rfl⟩

theorem tu_cast_ptr_eval (T : Generated) (L : String) (p : Eval Ptr) (a : Nat) (w : World)
    (u : TaggedUnion) (t n : Nat) (ht : tagValue T L = some t) (hn : memberSize T L = some n)
    (hp : p w = .ok (some a, w)) (ha : w.heap[a]? = some u) :
    tu_cast_ptr T L p w = .ok (if u.tag_value = t then some ⟨a, L⟩ else none, w) := by
  by_cases h : u.tag_value = t
  · have hb : (u.tag_value == t) = true := by simpa using h
    simp [tu_cast_ptr, ht, tu_check_ptr_pure p a u _ w hp ha, hb, hp, addressOfMember, hn,
      lt_length_of_getElem? _ _ _ ha, h]
  · have hb : (u.tag_value == t) = false := by simpa using h
    simp [tu_cast_ptr, ht, tu_check_ptr_pure p a u _ w hp ha, hb, h]

theorem tu_cast_eval (NDEBUG : Bool) (T : Generated) (L : String) (x : Eval TaggedUnion)
    (w : World) (u : TaggedUnion) (t n : Nat) (ht : tagValue T L = some t)
    (hn : memberSize T L = some n) (hx : x w = .ok (u, w)) :
    tu_cast NDEBUG T L x w =
      if NDEBUG = false ∧ u.tag_value ≠ t then .error .abort
      else .ok (u.untagged_union.take n, w) := by
  cases NDEBUG
  · by_cases h : u.tag_value = t
    · have hb : (u.tag_value == t) = true := by simpa using h
      simp [tu_cast, ht, c_assert, tu_check_pure x u _ w hx, hb, hx, readMember, hn, h]
    · have hb : (u.tag_value == t) = false := by simpa using h
      simp [tu_cast, ht, c_assert, tu_check_pure x u _ w hx, hb, h]
  · simp [tu_cast, ht, c_assert, hx, readMember, hn]

theorem loadMember_eval (T : Generated) (L : String) (w : World) (a : Nat) (u : TaggedUnion)
    (n : Nat) (hn : memberSize T L = some n) (ha : w.heap[a]? = some u) :
    loadMember T w ⟨a, L⟩ = .ok (u.untagged_union.take n) := by
  simp [loadMember, deref, ha, readMember, hn]

theorem compiles_of_resolve (T : Generated) (p : Eval Ptr) (site : Site) (w : World)
    (r : List Event × World) (h : tu_resolve T p site w = .ok r) : compiles T site = true := by
  by_contra hc
  simp [tu_resolve, hc] at h

/-- C12. Dispatch agrees with extraction: whenever the dispatch on a pointer to an
instance runs the body of a `tu_matches` branch, the handle that body is given is the
non-null pointer `tu_cast_ptr` returns for the same label and instance, and the value
read through it is the value `tu_cast` returns for that label and instance, with
assertions compiled in or out; the state the dispatch ends in is the one that body
produced from the state at entry. -/
theorem dispatch_agrees_with_extraction (NDEBUG : Bool) (T : Generated) (site : Site)
    (p : Eval Ptr) (a : Nat) (w : World) (u : TaggedUnion) (k : Nat) (L : String)
    (body : Code) (events : List Event) (w1 : World) (h : Option MemberPtr)
    (hp : p w = .ok (some a, w)) (ha : w.heap[a]? = some u)
    (hk : site.branches[k]? = some (Branch.tu_matches L body))
    (hres : tu_resolve T p site w = .ok (events, w1))
    (hexec : (⟨.branch k, h⟩ : Event) ∈ events) :
    ∃ m v, h = some m ∧ m = ⟨a, L⟩ ∧
      tu_cast_ptr T L p w = .ok (some m, w) ∧
      loadMember T w m = .ok v ∧
      tu_cast NDEBUG T L (obj a) w = .ok (v, w) ∧
      w1 = body h w := by
  have hc := compiles_of_resolve T p site w _ hres
  rcases (compiles_iff T site).mp hc with ⟨hdecl, _, _⟩
  rcases tu_resolve_cases T p site w a u hc hp ha with
    ⟨k1, M, body1, hk1, ht, hres1⟩ | ⟨k1, body1, hk1, _, hres1⟩ | ⟨_, _, hres1⟩
  · rw [hres1] at hres
    simp only [Except.ok.injEq, Prod.mk.injEq] at hres
    rcases hres with ⟨hev, hw⟩
    subst hev
    simp only [List.mem_singleton, Event.mk.injEq, Region.branch.injEq] at hexec
    rcases hexec with ⟨hkk, hh⟩
    subst hkk
    rw [hk] at hk1
    simp only [Option.some.injEq, Branch.tu_matches.injEq] at hk1
    rcases hk1 with ⟨hL, hbody⟩
    subst hL
    subst hbody
    have hsz := (hdecl L (caseLabels_of_index _ k L body hk)).2
    rcases Option.isSome_iff_exists.mp hsz with ⟨n, hn⟩
    refine ⟨⟨a, L⟩, u.untagged_union.take n, hh, rfl, ?_, loadMember_eval T L w a u n hn ha,
      ?_, ?_⟩
    · simp [tu_cast_ptr_eval T L p a w u _ n ht hn hp ha]
    · simp [tu_cast_eval NDEBUG T L (obj a) w u _ n ht hn (obj_pure a w u ha)]
    · rw [← hw, hh]
  · rw [hres1] at hres
    simp only [Except.ok.injEq, Prod.mk.injEq] at hres
    rcases hres with ⟨hev, _⟩
    subst hev
    simp only [List.mem_singleton, Event.mk.injEq, Region.branch.injEq] at hexec
    rcases hexec with ⟨hkk, _⟩
    subst hkk
    rw [hk] at hk1
    cases hk1
  · rw [hres1] at hres
    simp only [Except.ok.injEq, Prod.mk.injEq] at hres
    rcases hres with ⟨hev, _⟩
    subst hev
    simp at hexec

/-- The dispatch on the circle of `twoShapes` at `fullSite` hands its `Circle` branch
the pointer `tu_cast_ptr` returns and the value `tu_cast` returns. -/
theorem dispatch_agrees_with_extraction_witness :
    addrOf 0 twoShapes = .ok (some 0, twoShapes) ∧
    twoShapes.heap[0]? = some ⟨0, [1, 2, 3, 4, 0, 0, 0, 0]⟩ ∧
    fullSite.branches[0]? = some (Branch.tu_matches "Circle" (mark 1)) ∧
    tu_resolve (tagged_union shape) (addrOf 0) fullSite twoShapes
      = .ok ([⟨.branch 0, some ⟨0, "Circle"⟩⟩], mark 1 (some ⟨0, "Circle"⟩) twoShapes) ∧
    (⟨.branch 0, some ⟨0, "Circle"⟩⟩ : Event) ∈ [(⟨.branch 0, some ⟨0, "Circle"⟩⟩ : Event)] ∧
    ∃ m v, some (⟨0, "Circle"⟩ : MemberPtr) = some m ∧ m = ⟨0, "Circle"⟩ ∧
      tu_cast_ptr (tagged_union shape) "Circle" (addrOf 0) twoShapes = .ok (some m, twoShapes) ∧
      loadMember (tagged_union shape) twoShapes m = .ok v ∧
      tu_cast false (tagged_union shape) "Circle" (obj 0) twoShapes = .ok (v, twoShapes) ∧
      mark 1 (some ⟨0, "Circle"⟩) twoShapes = mark 1 (some ⟨0, "Circle"⟩) twoShapes :=
  ⟨rfl, rfl, rfl, rfl, by simp,
    dispatch_agrees_with_extraction false (tagged_union shape) fullSite (addrOf 0) 0 twoShapes
      ⟨0, [1, 2, 3, 4, 0, 0, 0, 0]⟩ 0 "Circle" (mark 1) _ _ (some ⟨0, "Circle"⟩)
      rfl rfl rfl rfl (by simp)⟩

theorem storeMember_ok (entries : List Entry) (e : Entry) (val : Bytes) (w : World) (a : Nat)
    (u : TaggedUnion) (hu : UniqueLabels entries) (he : e ∈ entries)
    (hval : val.length = e.size) (ha : w.heap[a]? = some u) :
    storeMember (tagged_union entries) w ⟨a, e.tag_label⟩ val =
      .ok { w with heap :=
              (w.heap.set a { u with untagged_union := storeBytes val u.untagged_union }) } := by
  simp [storeMember, memberSize_of_mem entries e hu he, ha, hval]

theorem heap_after_store (heap : List TaggedUnion) (a : Nat) (u u1 : TaggedUnion)
    (ha : heap[a]? = some u) : (heap.set a u1)[a]? = some u1 := by
  simp [List.getElem?_set, lt_length_of_getElem? _ _ _ ha]

/-- C13. References alias the storage of the instance: for an instance stored at an
address whose discriminant is the constant of a declared label, and a value of that
label's type, `tu_cast_ptr` on a pointer to the instance returns a non-null pointer, and
the dispatch at a site whose branch for that label assigns the value through its handle
runs that branch with the same pointer as handle; the assignment through that pointer
succeeds, and in the state it produces, which is also the state the dispatch ends in,
`tu_cast` of the instance with that label returns the value written and `tu_check` of the
instance against the label's constant is still true. -/
theorem references_alias_storage (NDEBUG : Bool) (entries : List Entry) (e : Entry)
    (val : Bytes) (u : TaggedUnion) (p : Eval Ptr) (a : Nat) (w : World) (site : Site)
    (k : Nat)
    (hu : UniqueLabels entries) (he : e ∈ entries) (hval : val.length = e.size)
    (hp : p w = .ok (some a, w)) (ha : w.heap[a]? = some u)
    (htag : tagValue (tagged_union entries) e.tag_label = some u.tag_value)
    (hc : compiles (tagged_union entries) site = true)
    (hk : site.branches[k]? =
      some (Branch.tu_matches e.tag_label (assign (tagged_union entries) val))) :
    ∃ m w2, tu_cast_ptr (tagged_union entries) e.tag_label p w = .ok (some m, w) ∧
      storeMember (tagged_union entries) w m val = .ok w2 ∧
      tu_resolve (tagged_union entries) p site w = .ok ([⟨.branch k, some m⟩], w2) ∧
      tu_cast NDEBUG (tagged_union entries) e.tag_label (obj a) w2 = .ok (val, w2) ∧
      tu_check (obj a) u.tag_value w2 = .ok (true, w2) := by
  have hidx : u.tag_value = (labels entries).indexOf e.tag_label := by
    rw [tagValue_of_mem entries e he] at htag
    exact (Option.some.inj htag).symm
  have hstore := storeMember_ok entries e val w a u hu he hval ha
  rcases (compiles_iff _ site).mp hc with ⟨_, hnd, _⟩
  refine ⟨⟨a, e.tag_label⟩, _, ?_, hstore, ?_, ?_, ?_⟩
  · simp [tu_cast_ptr_pure entries e u p a w hu he hp ha, hidx]
  · rw [tu_resolve_pure _ p site w a u hc hp ha,
      execSwitch_case _ (some a) _ site k e.tag_label _ w hk htag hnd,
      addressOfMember_ok entries e w a u hu he ha]
    simp [assign, hstore]
  · have hobj := obj_pure a
      { w with heap :=
          (w.heap.set a { u with untagged_union := storeBytes val u.untagged_union }) }
      { u with untagged_union := storeBytes val u.untagged_union }
      (heap_after_store w.heap a u _ ha)
    rw [tu_cast_pure NDEBUG entries e _ (obj a) _ hu he hobj]
    simp [hidx, take_storeBytes _ _ _ hval]
  · have hobj := obj_pure a
      { w with heap :=
          (w.heap.set a { u with untagged_union := storeBytes val u.untagged_union }) }
      { u with untagged_union := storeBytes val u.untagged_union }
      (heap_after_store w.heap a u _ ha)
    simp [tu_check_pure (obj a) _ _ _ hobj]

/-- Overwriting the circle of `twoShapes` through the pointer `tu_cast_ptr` returns, or
through the handle of the `Circle` branch of `writeSite`, changes the circle. -/
theorem references_alias_storage_witness :
    UniqueLabels shape ∧ (⟨"Circle", 4⟩ : Entry) ∈ shape ∧ ([9, 9, 9, 9] : Bytes).length = 4 ∧
    addrOf 0 twoShapes = .ok (some 0, twoShapes) ∧
    twoShapes.heap[0]? = some ⟨0, [1, 2, 3, 4, 0, 0, 0, 0]⟩ ∧
    tagValue (tagged_union shape) "Circle" = some 0 ∧
    compiles (tagged_union shape) writeSite = true ∧
    writeSite.branches[0]? =
      some (Branch.tu_matches "Circle" (assign (tagged_union shape) [9, 9, 9, 9])) ∧
    ∃ m w2, tu_cast_ptr (tagged_union shape) "Circle" (addrOf 0) twoShapes
        = .ok (some m, twoShapes) ∧
      storeMember (tagged_union shape) twoShapes m [9, 9, 9, 9] = .ok w2 ∧
      tu_resolve (tagged_union shape) (addrOf 0) writeSite twoShapes
        = .ok ([⟨.branch 0, some m⟩], w2) ∧
      tu_cast false (tagged_union shape) "Circle" (obj 0) w2 = .ok ([9, 9, 9, 9], w2) ∧
      tu_check (obj 0) 0 w2 = .ok (true, w2) :=
  ⟨by decide, by decide, rfl, rfl, rfl, rfl, by decide, rfl,
    references_alias_storage false shape ⟨"Circle", 4⟩ [9, 9, 9, 9]
      ⟨0, [1, 2, 3, 4, 0, 0, 0, 0]⟩ (addrOf 0) 0 twoShapes writeSite 0
      (by decide) (by decide) rfl rfl rfl rfl (by decide) rfl⟩

/-- C14, as stated, fails: in a build that defines `NDEBUG`, `tu_cast_ptr(Circle, &r)` on
the rectangle `r` of `twoShapes` returns `NULL` while `tu_cast(Circle, r)` does not abort
and returns the first four bytes of the rectangle. -/
theorem extract_forms_differ_when_assert_disabled :
    tu_cast_ptr (tagged_union shape) "Circle" (addrOf 1) twoShapes = .ok (none, twoShapes) ∧
    tu_cast true (tagged_union shape) "Circle" (obj 1) twoShapes
      = .ok ([5, 6, 7, 8], twoShapes) :=
  ⟨rfl, rfl⟩

/-- C14, amended: for every instance stored at an address and every declared label,
when assertions are compiled in (`NDEBUG` not defined) `tu_cast` aborts exactly when
`tu_cast_ptr` returns `NULL`, and when `NDEBUG` is defined `tu_cast` never aborts;
in both builds, whenever `tu_cast_ptr` returns a non-null pointer the value read
through it is the value `tu_cast` returns; and `tu_check_ptr` on a pointer to the
instance equals `tu_check` on the instance for every tag. -/
theorem extract_forms_agree (entries : List Entry) (e : Entry) (u : TaggedUnion)
    (p : Eval Ptr) (a : Nat) (w : World) (t : Nat)
    (hu : UniqueLabels entries) (he : e ∈ entries)
    (hp : p w = .ok (some a, w)) (ha : w.heap[a]? = some u) :
    (tu_cast false (tagged_union entries) e.tag_label (obj a) w = .error .abort ↔
      tu_cast_ptr (tagged_union entries) e.tag_label p w = .ok (none, w)) ∧
    (∃ v, tu_cast true (tagged_union entries) e.tag_label (obj a) w = .ok (v, w)) ∧
    (∀ (NDEBUG : Bool) (m : MemberPtr),
      tu_cast_ptr (tagged_union entries) e.tag_label p w = .ok (some m, w) →
      ∃ v, loadMember (tagged_union entries) w m = .ok v ∧
        tu_cast NDEBUG (tagged_union entries) e.tag_label (obj a) w = .ok (v, w)) ∧
    tu_check_ptr p t w = tu_check (obj a) t w := by
  have hobj := obj_pure a w u ha
  have hcp := tu_cast_ptr_pure entries e u p a w hu he hp ha
  refine ⟨?_, ?_, ?_, ?_⟩
  · rw [tu_cast_pure false entries e u (obj a) w hu he hobj, hcp]
    by_cases h : u.tag_value = (labels entries).indexOf e.tag_label <;> simp [h]
  · rw [tu_cast_pure true entries e u (obj a) w hu he hobj]
    exact ⟨u.untagged_union.take e.size, by simp⟩
  · intro NDEBUG m hm
    rw [hcp] at hm
    by_cases h : u.tag_value = (labels entries).indexOf e.tag_label
    · simp only [h, if_true, Except.ok.injEq, Prod.mk.injEq, Option.some.injEq, and_true] at hm
      subst hm
      refine ⟨_, loadMember_ok entries e w a u hu he ha, ?_⟩
      rw [tu_cast_pure NDEBUG entries e u (obj a) w hu he hobj]
      simp [h]
    · simp [h] at hm
  · rw [tu_check_ptr_pure p a u t w hp ha, tu_check_pure (obj a) u t w hobj]

/-- The two extract forms on the rectangle of `twoShapes`, asked for a circle. -/
theorem extract_forms_agree_witness :
    UniqueLabels shape ∧ (⟨"Circle", 4⟩ : Entry) ∈ shape ∧
    addrOf 1 twoShapes = .ok (some 1, twoShapes) ∧
    twoShapes.heap[1]? = some ⟨1, [5, 6, 7, 8, 9, 10, 11, 12]⟩ ∧
    ((tu_cast false (tagged_union shape) "Circle" (obj 1) twoShapes = .error .abort ↔
      tu_cast_ptr (tagged_union shape) "Circle" (addrOf 1) twoShapes = .ok (none, twoShapes)) ∧
    (∃ v, tu_cast true (tagged_union shape) "Circle" (obj 1) twoShapes = .ok (v, twoShapes)) ∧
    (∀ (NDEBUG : Bool) (m : MemberPtr),
      tu_cast_ptr (tagged_union shape) "Circle" (addrOf 1) twoShapes = .ok (some m, twoShapes) →
      ∃ v, loadMember (tagged_union shape) twoShapes m = .ok v ∧
        tu_cast NDEBUG (tagged_union shape) "Circle" (obj 1) twoShapes = .ok (v, twoShapes)) ∧
    tu_check_ptr (addrOf 1) 0 twoShapes = tu_check (obj 1) 0 twoShapes) :=
  ⟨by decide, by decide, rfl, rfl,
    extract_forms_agree shape ⟨"Circle", 4⟩ ⟨1, [5, 6, 7, 8, 9, 10, 11, 12]⟩ (addrOf 1) 1
      twoShapes 0 (by decide) (by decide) rfl rfl⟩

theorem caseLabels_perm (bs bs1 : List Branch) (h : bs.Perm bs1) :
    (caseLabels bs).Perm (caseLabels bs1) := by
  induction h with
  | nil => exact List.Perm.refl _
  | cons x _ ih => cases x <;> simp [caseLabels, ih]
  | swap x y l =>
    cases x <;> cases y <;> simp [caseLabels]
    exact List.Perm.swap _ _ _
  | trans _ _ ih1 ih2 => exact ih1.trans ih2

theorem defaultCount_perm (bs bs1 : List Branch) (h : bs.Perm bs1) :
    defaultCount bs = defaultCount bs1 := by
  induction h with
  | nil => rfl
  | cons x _ ih => cases x <;> simp [defaultCount, ih]
  | swap x y l => cases x <;> cases y <;> simp [defaultCount]
  | trans _ _ ih1 ih2 => exact ih1.trans ih2

theorem compiles_perm (T : Generated) (site site1 : Site)
    (hc : compiles T site = true) (hperm : site.branches.Perm site1.branches) :
    compiles T site1 = true := by
  rcases (compiles_iff T site).mp hc with ⟨hdecl, hnd, hone⟩
  have hl := caseLabels_perm _ _ hperm
  refine (compiles_iff T site1).mpr ⟨?_, ?_, ?_⟩
  · exact fun L hL => hdecl L (hl.mem_iff.mpr hL)
  · exact ((hl.map (tagValue T)).nodup_iff).mp hnd
  · rw [← defaultCount_perm _ _ hperm]; exact hone

theorem case_mem_labels (bs : List Branch) (L : String) (body : Code)
    (h : Branch.tu_matches L body ∈ bs) : L ∈ caseLabels bs := by
  rcases List.mem_iff_getElem?.mp h with ⟨k, hk⟩
  exact caseLabels_of_index bs k L body hk

theorem default_mem_count (bs : List Branch) (body : Code)
    (h : Branch.tu_no_match body ∈ bs) : defaultCount bs ≠ 0 := by
  induction bs with
  | nil => simp at h
  | cons x xs ih =>
    cases x with
    | tu_matches M b =>
      simp only [List.mem_cons, reduceCtorEq, false_or] at h
      simpa [defaultCount] using ih h
    | tu_no_match b => simp [defaultCount]

theorem unique_case (T : Generated) (bs : List Branch) (L L1 : String) (body body1 : Code)
    (hnd : ((caseLabels bs).map (tagValue T)).Nodup)
    (h : Branch.tu_matches L body ∈ bs) (h1 : Branch.tu_matches L1 body1 ∈ bs)
    (ht : tagValue T L = tagValue T L1) : L = L1 ∧ body = body1 := by
  induction bs with
  | nil => simp at h
  | cons x xs ih =>
    cases x with
    | tu_matches M b =>
      simp only [caseLabels, List.map_cons, List.nodup_cons, List.mem_map, not_exists,
        not_and] at hnd
      simp only [List.mem_cons, Branch.tu_matches.injEq] at h h1
      rcases h with ⟨hL, hb⟩ | h
      · rcases h1 with ⟨hL1, hb1⟩ | h1
        · exact ⟨hL.trans hL1.symm, hb.trans hb1.symm⟩
        · exact absurd (by rw [← ht, hL]) (hnd.1 L1 (case_mem_labels xs L1 body1 h1))
      · rcases h1 with ⟨hL1, _⟩ | h1
        · exact absurd (by rw [ht, hL1]) (hnd.1 L (case_mem_labels xs L body h))
        · exact ih hnd.2 h h1
    | tu_no_match b =>
      simp only [List.mem_cons, reduceCtorEq, false_or] at h h1
      exact ih (by simpa [caseLabels] using hnd) h h1

theorem unique_default (bs : List Branch) (body body1 : Code)
    (hone : defaultCount bs ≤ 1)
    (h : Branch.tu_no_match body ∈ bs) (h1 : Branch.tu_no_match body1 ∈ bs) :
    body = body1 := by
  induction bs with
  | nil => simp at h
  | cons x xs ih =>
    cases x with
    | tu_matches M b =>
      simp only [List.mem_cons, reduceCtorEq, false_or] at h h1
      exact ih (by simpa [defaultCount] using hone) h h1
    | tu_no_match b =>
      simp only [defaultCount] at hone
      have hz : defaultCount xs = 0 := by omega
      simp only [List.mem_cons, Branch.tu_no_match.injEq] at h h1
      rcases h with hb | h
      · rcases h1 with hb1 | h1
        · exact hb.trans hb1.symm
        · exact absurd hz (default_mem_count xs body1 h1)
      · exact absurd hz (default_mem_count xs body h)

/-- C15. Branch order does not matter: for a site the compiler accepts (its `case`
constants are pairwise distinct and it has at most one `default`) and any site whose
branches are a permutation of its branches, the dispatches on a pointer to the same
instance either both run no user code, or both run the body of the same written
branch, exactly once, with the same handle, and end in the same state; only the
position at which that branch is written differs. -/
theorem branch_order_irrelevant (T : Generated) (site site1 : Site) (p : Eval Ptr) (a : Nat)
    (w : World) (u : TaggedUnion)
    (hc : compiles T site = true) (hperm : site.branches.Perm site1.branches)
    (hp : p w = .ok (some a, w)) (ha : w.heap[a]? = some u) :
    (tu_resolve T p site w = .ok ([], w) ∧ tu_resolve T p site1 w = .ok ([], w)) ∨
    ∃ (k k1 : Nat) (b : Branch) (h : Option MemberPtr) (w1 : World),
      site.branches[k]? = some b ∧ site1.branches[k1]? = some b ∧
      tu_resolve T p site w = .ok ([⟨.branch k, h⟩], w1) ∧
      tu_resolve T p site1 w = .ok ([⟨.branch k1, h⟩], w1) := by
  have hc1 := compiles_perm T site site1 hc hperm
  rcases (compiles_iff T site).mp hc with ⟨_, hnd, hone⟩
  have hl := caseLabels_perm _ _ hperm
  have hd := defaultCount_perm _ _ hperm
  rcases tu_resolve_cases T p site w a u hc hp ha with
    ⟨k, L, body, hk, ht, hres⟩ | ⟨k, body, hk, hmiss, hres⟩ | ⟨hmiss, hz, hres⟩
  · rcases tu_resolve_cases T p site1 w a u hc1 hp ha with
      ⟨k1, L1, body1, hk1, ht1, hres1⟩ | ⟨_, _, _, hmiss1, _⟩ | ⟨hmiss1, _, _⟩
    · have hm : Branch.tu_matches L body ∈ site.branches := List.mem_iff_getElem?.mpr ⟨k, hk⟩
      have hm1 : Branch.tu_matches L1 body1 ∈ site.branches :=
        hperm.mem_iff.mpr (List.mem_iff_getElem?.mpr ⟨k1, hk1⟩)
      rcases unique_case T _ L L1 body body1 hnd hm hm1 (ht.trans ht1.symm) with ⟨hL, hb⟩
      subst hL
      subst hb
      exact Or.inr ⟨k, k1, _, _, _, hk, hk1, hres, hres1⟩
    · exact absurd ht (hmiss1 L (hl.mem_iff.mp (caseLabels_of_index _ k L body hk)))
    · exact absurd ht (hmiss1 L (hl.mem_iff.mp (caseLabels_of_index _ k L body hk)))
  · rcases tu_resolve_cases T p site1 w a u hc1 hp ha with
      ⟨k1, L1, body1, hk1, ht1, _⟩ | ⟨k1, body1, hk1, _, hres1⟩ | ⟨_, hz1, _⟩
    · exact absurd ht1 (hmiss L1 (hl.mem_iff.mpr (caseLabels_of_index _ k1 L1 body1 hk1)))
    · have hm : Branch.tu_no_match body ∈ site.branches := List.mem_iff_getElem?.mpr ⟨k, hk⟩
      have hm1 : Branch.tu_no_match body1 ∈ site.branches :=
        hperm.mem_iff.mpr (List.mem_iff_getElem?.mpr ⟨k1, hk1⟩)
      have hb := unique_default _ body body1 hone hm hm1
      subst hb
      exact Or.inr ⟨k, k1, _, _, _, hk, hk1, hres, hres1⟩
    · have hm : Branch.tu_no_match body ∈ site.branches := List.mem_iff_getElem?.mpr ⟨k, hk⟩
      exact absurd (hd.trans hz1) (default_mem_count _ body hm)
  · rcases tu_resolve_cases T p site1 w a u hc1 hp ha with
      ⟨k1, L1, body1, hk1, ht1, _⟩ | ⟨k1, body1, hk1, _, _⟩ | ⟨_, _, hres1⟩
    · exact absurd ht1 (hmiss L1 (hl.mem_iff.mpr (caseLabels_of_index _ k1 L1 body1 hk1)))
    · have hm1 : Branch.tu_no_match body1 ∈ site1.branches :=
        List.mem_iff_getElem?.mpr ⟨k1, hk1⟩
      exact absurd (hd.symm.trans hz) (default_mem_count _ body1 hm1)
    · exact Or.inl ⟨hres, hres1⟩

/-- The dispatch on the rectangle of `twoShapes` at `fullSite` and at `permutedSite`. -/
theorem branch_order_irrelevant_witness :
    compiles (tagged_union shape) fullSite = true ∧
    fullSite.branches.Perm permutedSite.branches ∧
    addrOf 1 twoShapes = .ok (some 1, twoShapes) ∧
    twoShapes.heap[1]? = some ⟨1, [5, 6, 7, 8, 9, 10, 11, 12]⟩ ∧
    ((tu_resolve (tagged_union shape) (addrOf 1) fullSite twoShapes = .ok ([], twoShapes) ∧
      tu_resolve (tagged_union shape) (addrOf 1) permutedSite twoShapes
        = .ok ([], twoShapes)) ∨
    ∃ (k k1 : Nat) (b : Branch) (h : Option MemberPtr) (w1 : World),
      fullSite.branches[k]? = some b ∧ permutedSite.branches[k1]? = some b ∧
      tu_resolve (tagged_union shape) (addrOf 1) fullSite twoShapes
        = .ok ([⟨.branch k, h⟩], w1) ∧
      tu_resolve (tagged_union shape) (addrOf 1) permutedSite twoShapes
        = .ok ([⟨.branch k1, h⟩], w1)) :=
  ⟨by decide,
    (List.Perm.swap _ _ _).trans
      ((List.Perm.cons _ (List.Perm.swap _ _ _)).trans (List.Perm.swap _ _ _)),
    rfl, rfl,
    branch_order_irrelevant (tagged_union shape) fullSite permutedSite (addrOf 1) 1 twoShapes
      ⟨1, [5, 6, 7, 8, 9, 10, 11, 12]⟩ (by decide)
      ((List.Perm.swap _ _ _).trans
        ((List.Perm.cons _ (List.Perm.swap _ _ _)).trans (List.Perm.swap _ _ _)))
      rfl rfl⟩

theorem execSwitch_regions (T : Generated) (tu : Ptr) (t : Nat) (site : Site) (w : World)
    (events : List Event) (w1 : World) (hc : compiles T site = true)
    (hres : execSwitch T tu t (switchBody site) w = .ok (events, w1)) :
    ∀ ev ∈ events, ∃ k, ev.region = .branch k := by
  rcases (compiles_iff T site).mp hc with ⟨_, hnd, hone⟩
  by_cases hhit : ∃ L ∈ caseLabels site.branches, tagValue T L = some t
  · rcases hhit with ⟨L, hL, ht⟩
    rcases mem_caseLabels _ _ hL with ⟨k, body, hk⟩
    rw [execSwitch_case T tu t site k L body w hk ht hnd] at hres
    cases hm : addressOfMember T w tu L with
    | error f => simp [hm] at hres
    | ok m =>
      simp only [hm, Except.ok.injEq, Prod.mk.injEq] at hres
      intro ev hev
      rw [← hres.1] at hev
      simp only [List.mem_singleton] at hev
      exact ⟨k, by rw [hev]⟩
  · have hmiss : ∀ L ∈ caseLabels site.branches, tagValue T L ≠ some t :=
      fun L hL hc1 => hhit ⟨L, hL, hc1⟩
    by_cases hd : defaultCount site.branches = 0
    · rw [execSwitch_none T tu t site w hmiss hd] at hres
      simp only [Except.ok.injEq, Prod.mk.injEq] at hres
      intro ev hev
      rw [← hres.1] at hev
      simp at hev
    · rcases exists_default _ hd with ⟨k, body, hk⟩
      rw [execSwitch_default T tu t site k body w hk hmiss hone] at hres
      simp only [Except.ok.injEq, Prod.mk.injEq] at hres
      intro ev hev
      rw [← hres.1] at hev
      simp only [List.mem_singleton] at hev
      exact ⟨k, by rw [hev]⟩

theorem tu_resolve_regions (T : Generated) (q : Eval Ptr) (site : Site) (w : World)
    (events : List Event) (w1 : World)
    (hres : tu_resolve T q site w = .ok (events, w1)) :
    ∀ ev ∈ events, ∃ k, ev.region = .branch k := by
  have hc := compiles_of_resolve T q site w _ hres
  simp only [tu_resolve, hc, if_true] at hres
  split at hres
  · cases hres
  · split at hres
    · cases hres
    · split at hres
      · cases hres
      · exact execSwitch_regions T _ _ site _ events w1 hc hres

/-- C16. Uncovered discriminant without a default: at a site the compiler accepts that
has no `tu_no_match` branch, the dispatch on a pointer to an instance whose discriminant
is the constant of no `tu_matches` branch runs no user code at all and returns in the
unchanged state; and whenever a dispatch returns, with any pointer expression and at
any site, none of the user code it ran is what is written between `tu_resolve` and the
first branch. -/
theorem uncovered_without_default (T : Generated) (site : Site) (p : Eval Ptr) (a : Nat)
    (w : World) (u : TaggedUnion)
    (hc : compiles T site = true)
    (hp : p w = .ok (some a, w)) (ha : w.heap[a]? = some u)
    (hmiss : ∀ L ∈ caseLabels site.branches, tagValue T L ≠ some u.tag_value)
    (hnodef : ∀ (j : Nat) (body : Code), site.branches[j]? ≠ some (Branch.tu_no_match body)) :
    tu_resolve T p site w = .ok ([], w) ∧
    ∀ (q : Eval Ptr) (s : Site) (w0 : World) (events : List Event) (w1 : World),
      tu_resolve T q s w0 = .ok (events, w1) → ∀ ev ∈ events, ev.region ≠ .before := by
  refine ⟨?_, ?_⟩
  · have hz : defaultCount site.branches = 0 := by
      by_contra hd
      rcases exists_default _ hd with ⟨k, body, hk⟩
      exact hnodef k body hk
    rw [tu_resolve_pure T p site w a u hc hp ha]
    exact execSwitch_none T _ _ site w hmiss hz
  · intro q s w0 events w1 hres ev hev hreg
    rcases tu_resolve_regions T q s w0 events w1 hres ev hev with ⟨k, hk⟩
    rw [hk] at hreg
    cases hreg

/-- The dispatch on the rectangle of `twoShapes` at `bareSite`, which has a branch for
`Circle` only, runs nothing. -/
theorem uncovered_without_default_witness :
    compiles (tagged_union shape) bareSite = true ∧
    addrOf 1 twoShapes = .ok (some 1, twoShapes) ∧
    twoShapes.heap[1]? = some ⟨1, [5, 6, 7, 8, 9, 10, 11, 12]⟩ ∧
    (∀ L ∈ caseLabels bareSite.branches, tagValue (tagged_union shape) L ≠ some 1) ∧
    (∀ (j : Nat) (body : Code), bareSite.branches[j]? ≠ some (Branch.tu_no_match body)) ∧
    tu_resolve (tagged_union shape) (addrOf 1) bareSite twoShapes = .ok ([], twoShapes) ∧
    ∀ (q : Eval Ptr) (s : Site) (w0 : World) (events : List Event) (w1 : World),
      tu_resolve (tagged_union shape) q s w0 = .ok (events, w1) →
      ∀ ev ∈ events, ev.region ≠ .before :=
  have hnodef : ∀ (j : Nat) (body : Code),
      bareSite.branches[j]? ≠ some (Branch.tu_no_match body) := by
    intro j body
    cases j with
    | zero => simp [bareSite]
    | succ j => simp [bareSite]
  ⟨by decide, rfl, rfl, by decide, hnodef,
    uncovered_without_default (tagged_union shape) bareSite (addrOf 1) 1 twoShapes
      ⟨1, [5, 6, 7, 8, 9, 10, 11, 12]⟩ (by decide) rfl rfl (by decide) hnodef⟩

end TaggedUnionH
